import Mathlib

/-!
Verification of the calmux calendar renderer (src/web/main.ts, the
multi-edge version of the file) against its natural-language specification.

Strings are modelled as `List Char`, JavaScript `Temporal.PlainDate` values
as integer day numbers (days since 1970-01-01), zoned date-times as local
civil date/minute pairs (fixed-offset zones; DST transitions are outside the
scope of the modelled claims), and JavaScript arrays with holes as
`List Bool` (`false` = hole).  JavaScript `%` on numbers is truncated
division remainder, modelled by `Int.tmod`; `Math.floor` division by
`Int.fdiv`.
-/

/-- Character constants used by the escaping code, written via code points to
keep the file free of quote-like character literals. -/
def quoteChar : Char := Char.ofNat 34

def aposChar : Char := Char.ofNat 39

def newlineChar : Char := Char.ofNat 10

def ampChar : Char := Char.ofNat 38

def semiChar : Char := Char.ofNat 59

/-- Model of JavaScript `String.prototype.replaceAll` for the single-character
patterns used by `escapeHtml` (src/web/main.ts lines 315-322): every
occurrence of `c` is replaced by `rep`. -/
def replaceAllChar (c : Char) (rep : List Char) (s : List Char) : List Char :=
  s.flatMap (fun x => if x = c then rep else [x])

/-- Model of `escapeHtml` (src/web/main.ts lines 315-322): replaces, in order,
ampersand, then the two angle brackets, then the double quote, then the
apostrophe, each by its HTML entity. -/
def escapeHtml (s : List Char) : List Char :=
  replaceAllChar aposChar ([ampChar] ++ "apos".toList ++ [semiChar])
    (replaceAllChar quoteChar ([ampChar] ++ "quot".toList ++ [semiChar])
      (replaceAllChar (Char.ofNat 62) ([ampChar] ++ "gt".toList ++ [semiChar])
        (replaceAllChar (Char.ofNat 60) ([ampChar] ++ "lt".toList ++ [semiChar])
          (replaceAllChar (Char.ofNat 38) ([ampChar] ++ "amp".toList ++ [semiChar]) s))))

/-- Model of `Event.renderTitleAttr` (src/web/main.ts lines 345-349): the
escaped title, a newline, the output of the abstract `formatTime()` (passed
here as `timeStr`), and, when a description is present, a newline and the
escaped description. -/
def renderTitleAttr (title : List Char) (timeStr : List Char)
    (desc : Option (List Char)) : List Char :=
  let t := escapeHtml title ++ [newlineChar] ++ timeStr
  match desc with
  | none => t
  | some d => t ++ [newlineChar] ++ escapeHtml d

theorem mem_replaceAllChar {x : Char} {c : Char} {rep s : List Char}
    (h : x ∈ replaceAllChar c rep s) : x ∈ rep ∨ (x ∈ s ∧ x ≠ c) := by
  unfold replaceAllChar at h
  rcases List.mem_flatMap.mp h with ⟨a, ha, hx⟩
  by_cases hac : a = c
  · subst hac
    simp at hx
    exact Or.inl hx
  · simp [hac] at hx
    subst hx
    exact Or.inr ⟨ha, hac⟩

theorem escapeHtml_not_mem {x : Char} (hx : x = Char.ofNat 60 ∨ x = Char.ofNat 62 ∨
    x = quoteChar ∨ x = aposChar) (s : List Char) : x ∉ escapeHtml s := by
  intro h
  unfold escapeHtml at h
  rcases mem_replaceAllChar h with h1 | ⟨h1, hne1⟩ <;>
    [skip; rcases mem_replaceAllChar h1 with h2 | ⟨h2, hne2⟩] <;>
    [skip; skip;
      rcases mem_replaceAllChar h2 with h3 | ⟨h3, hne3⟩] <;>
    [skip; skip; skip;
      rcases mem_replaceAllChar h3 with h4 | ⟨h4, hne4⟩] <;>
    [skip; skip; skip; skip;
      rcases mem_replaceAllChar h4 with h5 | ⟨h5, hne5⟩]
  · rcases hx with rfl | rfl | rfl | rfl <;> revert h1 <;> decide
  · rcases hx with rfl | rfl | rfl | rfl <;> revert h2 <;> first
      | (exact fun _ => hne1 rfl)
      | decide
  · rcases hx with rfl | rfl | rfl | rfl <;> first
      | (exact absurd rfl hne1)
      | (exact absurd rfl hne2)
      | (revert h3; decide)
  · rcases hx with rfl | rfl | rfl | rfl <;> first
      | (exact absurd rfl hne1)
      | (exact absurd rfl hne2)
      | (exact absurd rfl hne3)
      | (revert h4; decide)
  · rcases hx with rfl | rfl | rfl | rfl <;> first
      | (exact absurd rfl hne1)
      | (exact absurd rfl hne2)
      | (exact absurd rfl hne3)
      | (exact absurd rfl hne4)
      | (revert h5; decide)
  · rcases hx with rfl | rfl | rfl | rfl <;> first
      | (exact absurd rfl hne1)
      | (exact absurd rfl hne2)
      | (exact absurd rfl hne3)
      | (exact absurd rfl hne4)
      | (exact absurd rfl hne5)

/-- C10 (confirmed): for every input string, `escapeHtml` output contains no
left angle bracket, right angle bracket, double quote, or apostrophe; and any
double quote in the `renderTitleAttr` result can only come from the abstract
`formatTime()` string, never from the event title or description. -/
theorem escapeHtml_renderTitleAttr_safe (s title timeStr : List Char)
    (desc : Option (List Char)) :
    Char.ofNat 60 ∉ escapeHtml s ∧ Char.ofNat 62 ∉ escapeHtml s ∧
      quoteChar ∉ escapeHtml s ∧ aposChar ∉ escapeHtml s ∧
      (quoteChar ∈ renderTitleAttr title timeStr desc → quoteChar ∈ timeStr) := by
  refine ⟨escapeHtml_not_mem (Or.inl rfl) s,
    escapeHtml_not_mem (Or.inr (Or.inl rfl)) s,
    escapeHtml_not_mem (Or.inr (Or.inr (Or.inl rfl))) s,
    escapeHtml_not_mem (Or.inr (Or.inr (Or.inr rfl))) s, ?_⟩
  intro h
  unfold renderTitleAttr at h
  have hq : quoteChar ≠ newlineChar := by decide
  rcases desc with _ | d
  · simp only [List.append_assoc, List.mem_append, List.mem_singleton] at h
    rcases h with h | h | h
    · exact absurd h (escapeHtml_not_mem (Or.inr (Or.inr (Or.inl rfl))) title)
    · exact absurd h hq
    · exact h
  · simp only [List.append_assoc, List.mem_append, List.mem_singleton] at h
    rcases h with h | h | h | h | h
    · exact absurd h (escapeHtml_not_mem (Or.inr (Or.inr (Or.inl rfl))) title)
    · exact absurd h hq
    · exact h
    · exact absurd h hq
    · exact absurd h (escapeHtml_not_mem (Or.inr (Or.inr (Or.inl rfl))) d)

/-- C10 witness: no double quote survives escaping of a concrete string that
contains one. -/
theorem escapeHtml_renderTitleAttr_safe_witness :
    quoteChar ∉ escapeHtml ("a".toList ++ [quoteChar] ++ "b".toList) :=
  (escapeHtml_renderTitleAttr_safe ("a".toList ++ [quoteChar] ++ "b".toList)
    "t".toList "8am".toList (some "d".toList)).2.2.1

/-!
Calendar-grid arithmetic.  `Temporal.PlainDate` values are modelled as
integer day numbers (days since 1970-01-01, computed by the standard
days-from-civil algorithm), and `dayOfWeek` follows the ISO convention used
by Temporal: Monday = 1 through Sunday = 7.
-/

/-- Day number of a Gregorian calendar date (days since 1970-01-01), the
standard civil-from-date computation. -/
def daysFromCivil (y m d : Int) : Int :=
  let y2 := if m ≤ 2 then y - 1 else y
  let era := y2 / 400
  let yoe := y2 - era * 400
  let mp := (m + 9) % 12
  let doy := (153 * mp + 2) / 5 + d - 1
  let doe := yoe * 365 + yoe / 4 - yoe / 100 + doy
  era * 146097 + doe - 719468

/-- ISO day of week of a day number: Monday = 1 ... Sunday = 7
(1970-01-01 was a Thursday). -/
def dayOfWeekISO (d : Int) : Int := (d + 3) % 7 + 1

/-- January 1 of a year, as a day number. -/
def jan1 (y : Int) : Int := daysFromCivil y 1 1

/-- December 31 of a year, as a day number. -/
def dec31 (y : Int) : Int := daysFromCivil y 12 31

/-- Model of the `CalendarRenderer` constructor's `calendarStart`
(src/web/main.ts lines 443-445): `jan1.subtract({ days: jan1.dayOfWeek })`. -/
def calendarStart (y : Int) : Int := jan1 y - dayOfWeekISO (jan1 y)

/-- Model of the constructor's `inclusiveEnd` (src/web/main.ts lines 447-448):
`dec31.add({ days: 6 - dec31.dayOfWeek })`. -/
def calGridEnd (y : Int) : Int := dec31 y + (6 - dayOfWeekISO (dec31 y))

/-- Model of the constructor's `calendarDays` (src/web/main.ts line 449):
`calendarStart.until(inclusiveEnd).days + 1`. -/
def calendarDays (y : Int) : Int := (calGridEnd y - calendarStart y) + 1

/-- Modelled from the spec's words for comparison: the Sunday on or before a
given day. -/
def sundayOnOrBefore (d : Int) : Int := d - dayOfWeekISO d % 7

/-- Modelled from the spec's words for comparison: the Saturday on or after a
given day. -/
def saturdayOnOrAfter (d : Int) : Int := d + (6 - dayOfWeekISO d + 7) % 7

/-- C4 counterexample: in 2023 both January 1 and December 31 fall on a
Sunday; the constructor then sets `calendarStart` a full week before the
Sunday on or before January 1, and ends the grid at the Saturday before
December 31 instead of the Saturday after it, so December 31, 2023 is not a
grid cell at all. -/
theorem calendarStart_2023_not_sunday_on_or_before :
    dayOfWeekISO (jan1 2023) = 7 ∧
      calendarStart 2023 ≠ sundayOnOrBefore (jan1 2023) ∧
      calendarStart 2023 = sundayOnOrBefore (jan1 2023) - 7 ∧
      dayOfWeekISO (dec31 2023) = 7 ∧
      calGridEnd 2023 ≠ saturdayOnOrAfter (dec31 2023) ∧
      calGridEnd 2023 = dec31 2023 - 1 := by decide

/-- C4 (corrected): for every year, `calendarStart` is the Sunday on or
before December 31 of the previous year (hence the Sunday strictly before
January 1: one week earlier than the claim states exactly when January 1 is
a Sunday), the grid ends at the Saturday on or after December 30 (one week
earlier than the claim states exactly when December 31 is a Sunday), and
`calendarDays`, the inclusive cell count between those two days, is always a
multiple of 7. -/
theorem calendar_grid_bounds (y : Int) :
    calendarStart y = sundayOnOrBefore (jan1 y - 1) ∧
      calGridEnd y = saturdayOnOrAfter (dec31 y - 1) ∧
      dayOfWeekISO (calendarStart y) = 7 ∧
      dayOfWeekISO (calGridEnd y) = 6 ∧
      calendarDays y = calGridEnd y - calendarStart y + 1 ∧
      calendarDays y % 7 = 0 := by
  unfold calendarDays calendarStart calGridEnd sundayOnOrBefore saturdayOnOrAfter dayOfWeekISO
  omega

/-!
Event model.  `DateEvent` (src/web/main.ts lines 352-363) carries the two
parsed plain dates; `DateTimeEvent` (lines 385-407) carries the two zoned
date-times after conversion to the local time zone, modelled as civil
date/minute pairs.
-/

/-- Model of `DateEvent`: `data.startAt` / `data.endAt` parsed as plain
dates (day numbers). -/
structure DateEventM where
  startD : Int
  endD : Int
deriving DecidableEq, Repr

/-- Model of `DateEvent.startDate` (line 353). -/
def DateEventM.startDate (e : DateEventM) : Int := e.startD

/-- Model of `DateEvent.endDate` (line 357): the raw `endAt` date, with no
adjustment. -/
def DateEventM.endDate (e : DateEventM) : Int := e.endD

/-- Model of `DateEvent.multiLength` (line 361):
`startDate.until(endDate).days`. -/
def DateEventM.multiLength (e : DateEventM) : Int := e.endDate - e.startDate

/-- Model of the `inclusiveEnd` computed locally inside `DateEvent.formatTime`
(line 366): `endDate.subtract({ days: 1 })`. -/
def DateEventM.inclusiveEnd (e : DateEventM) : Int := e.endDate - 1

/-- Modelled from the spec's words, for comparison with `DateEventM.endDate`:
the raw end interpreted as exclusive and converted to an inclusive date by
subtracting one day. -/
def specDateEventEndDate (e : DateEventM) : Int := e.endD - 1

/-- C5 counterexample: a single-day `DateEvent` (March 10, 2025 with
exclusive raw end March 11).  Its `endDate` is the raw March 11, not the
inclusive March 10 the claim describes, and `multiLength()` is 1, not 0. -/
theorem dateEvent_endDate_not_inclusive :
    DateEventM.endDate ⟨daysFromCivil 2025 3 10, daysFromCivil 2025 3 11⟩ ≠
        specDateEventEndDate ⟨daysFromCivil 2025 3 10, daysFromCivil 2025 3 11⟩ ∧
      DateEventM.endDate ⟨daysFromCivil 2025 3 10, daysFromCivil 2025 3 11⟩ =
        daysFromCivil 2025 3 11 ∧
      DateEventM.multiLength ⟨daysFromCivil 2025 3 10, daysFromCivil 2025 3 11⟩ = 1 := by
  decide

/-- C5 (corrected): `endDate` is the raw end value unchanged (an exclusive
end; the inclusive conversion happens only locally in `formatTime`), and
`multiLength()` equals raw end minus start, i.e. the inclusive rendered
length is `multiLength()` days and a single-day `DateEvent` (raw end one day
after start) has `multiLength() = 1`, not 0. -/
theorem dateEvent_multiLength_exclusive (e : DateEventM)
    (hsingle : e.endD = e.startD + 1) :
    DateEventM.endDate e = e.endD ∧
      DateEventM.multiLength e = (DateEventM.inclusiveEnd e - e.startD) + 1 ∧
      DateEventM.multiLength e = 1 := by
  unfold DateEventM.multiLength DateEventM.inclusiveEnd DateEventM.endDate DateEventM.startDate
  omega

/-- C5 witness: the amended statement at the concrete single-day event. -/
theorem dateEvent_multiLength_exclusive_witness :
    (5 : Int) = 4 + 1 ∧
      (DateEventM.endDate ⟨4, 5⟩ = 5 ∧
        DateEventM.multiLength ⟨4, 5⟩ = (DateEventM.inclusiveEnd ⟨4, 5⟩ - 4) + 1 ∧
        DateEventM.multiLength ⟨4, 5⟩ = 1) :=
  ⟨by decide, dateEvent_multiLength_exclusive ⟨4, 5⟩ (by decide)⟩

/-- A local civil date-time: a day number plus minutes past local midnight.
Models a `Temporal.ZonedDateTime` after conversion to the local zone
(fixed-offset arithmetic). -/
structure LocalDT where
  day : Int
  minute : Int
deriving DecidableEq, Repr

/-- Civil addition of minutes to a local date-time, modelling
`ZonedDateTime.add`/`subtract` of whole hours away from DST transitions. -/
def LocalDT.addMinutes (t : LocalDT) (k : Int) : LocalDT :=
  ⟨(t.day * 1440 + t.minute + k) / 1440, (t.day * 1440 + t.minute + k) % 1440⟩

/-- Model of `DateTimeEvent`: local start and end date-times. -/
structure DateTimeEventM where
  startAt : LocalDT
  endAt : LocalDT
deriving DecidableEq, Repr

/-- Model of `DateTimeEvent.startDate` (line 394): local date of the start. -/
def DateTimeEventM.startDate (e : DateTimeEventM) : Int := e.startAt.day

/-- Model of `DateTimeEvent.endDate` (line 398): local date of the end. -/
def DateTimeEventM.endDate (e : DateTimeEventM) : Int := e.endAt.day

/-- Model of `DateTimeEvent.multiLength` (lines 402-407): 0 when start and
end share a local date, otherwise
`endAt.add({ hours: 12 }).toPlainDate().since(startDate).days`. -/
def DateTimeEventM.multiLength (e : DateTimeEventM) : Int :=
  if e.startAt.day = e.endAt.day then 0
  else (e.endAt.addMinutes 720).day - e.startAt.day

/-- Modelled from the spec's words, for comparison: the rendered end date is
the end instant's local date if the local end time-of-day is past noon,
otherwise the previous day. -/
def specRenderedEnd (e : DateTimeEventM) : Int :=
  if 720 < e.endAt.minute then e.endAt.day else e.endAt.day - 1

/-- C6 counterexample: an event from March 10, 2025, 20:00 to March 11,
13:00 local has `multiLength() = 2`, not rendered-end − start = 1; and
with the end at exactly noon `multiLength()` is still 2 (the code includes
the end day at or past noon), while the claim's reading gives 0. -/
theorem dateTimeEvent_multiLength_noon_counterexample :
    DateTimeEventM.multiLength
        ⟨⟨daysFromCivil 2025 3 10, 1200⟩, ⟨daysFromCivil 2025 3 11, 780⟩⟩ = 2 ∧
      specRenderedEnd ⟨⟨daysFromCivil 2025 3 10, 1200⟩, ⟨daysFromCivil 2025 3 11, 780⟩⟩ -
        daysFromCivil 2025 3 10 = 1 ∧
      DateTimeEventM.multiLength
        ⟨⟨daysFromCivil 2025 3 10, 1200⟩, ⟨daysFromCivil 2025 3 11, 720⟩⟩ = 2 ∧
      specRenderedEnd ⟨⟨daysFromCivil 2025 3 10, 1200⟩, ⟨daysFromCivil 2025 3 11, 720⟩⟩ -
        daysFromCivil 2025 3 10 = 0 := by
  decide

/-- C6 (corrected): `multiLength()` is 0 when start and end share a local
date; otherwise it equals the exclusive rendered end minus the start date:
the last rendered day is `startDate + multiLength() - 1`, which is the end
instant's local date when the local end time-of-day is at or past noon
(noon itself included, not `past noon`), and the previous day otherwise. -/
theorem dateTimeEvent_multiLength_noon (e : DateTimeEventM)
    (hm0 : 0 ≤ e.endAt.minute) (hm : e.endAt.minute < 1440) :
    (e.startAt.day = e.endAt.day → DateTimeEventM.multiLength e = 0) ∧
      (e.startAt.day ≠ e.endAt.day →
        DateTimeEventM.multiLength e =
          (if 720 ≤ e.endAt.minute then e.endAt.day + 1 else e.endAt.day) - e.startAt.day) := by
  unfold DateTimeEventM.multiLength LocalDT.addMinutes
  constructor
  · intro h
    simp [h]
  · intro h
    rw [if_neg h]
    dsimp only
    by_cases h12 : 720 ≤ e.endAt.minute
    · rw [if_pos h12]
      omega
    · rw [if_neg h12]
      omega

/-- C6 witness: the amended statement at a concrete two-day event ending at
13:00 local. -/
theorem dateTimeEvent_multiLength_noon_witness :
    (0 : Int) ≤ 780 ∧ (780 : Int) < 1440 ∧
      ((10 : Int) = 11 → DateTimeEventM.multiLength ⟨⟨10, 1200⟩, ⟨11, 780⟩⟩ = 0) ∧
      ((10 : Int) ≠ 11 →
        DateTimeEventM.multiLength ⟨⟨10, 1200⟩, ⟨11, 780⟩⟩ =
          (if (720 : Int) ≤ 780 then (11 : Int) + 1 else 11) - 10) :=
  ⟨by decide, by decide,
    (dateTimeEvent_multiLength_noon ⟨⟨10, 1200⟩, ⟨11, 780⟩⟩ (by decide) (by decide)).1,
    (dateTimeEvent_multiLength_noon ⟨⟨10, 1200⟩, ⟨11, 780⟩⟩ (by decide) (by decide)).2⟩

/-!
Multi-edge machinery.  Spanning events are decomposed into open/close edges
(src/web/main.ts lines 499-520), sorted by `compareMultiEdge`
(lines 522-531) and swept by `placeMultiEdges` (lines 533-552).  An event is
abstracted as the interface the machinery consumes: `startDate` (day
number), `multiLength()` and the three raw strings read by `Event.compare`
(lines 334-340).  Edge objects are identified by their creation index `id`;
the JavaScript backward reference `prev` is modelled by the id of the
referenced open edge, so reference (in)equality of `prev` pointers becomes
(in)equality of `prevId` values.
-/

/-- Abstract event as consumed by the decomposer and `Event.compare`. -/
structure MEvent where
  startDate : Int
  mlen : Int
  startKey : List Char
  endKey : List Char
  titleKey : List Char
deriving DecidableEq, Repr

/-- Codepoint-lexicographic three-way string comparison; models
`String.prototype.localeCompare` on the ASCII date/title strings the
comparisons are applied to. -/
def strCmp : List Char → List Char → Int
  | [], [] => 0
  | [], _ :: _ => -1
  | _ :: _, [] => 1
  | a :: as, b :: bs => if a < b then -1 else if b < a then 1 else strCmp as bs

/-- Model of `Event.compare` (lines 334-340): ascending raw `startAt`, then
descending raw `endAt`, then ascending title. -/
def eventCompare (x y : MEvent) : Int :=
  if strCmp x.startKey y.startKey ≠ 0 then strCmp x.startKey y.startKey
  else if -strCmp x.endKey y.endKey ≠ 0 then -strCmp x.endKey y.endKey
  else strCmp x.titleKey y.titleKey

/-- One multi-event edge (interface `MultiEventEdge`, lines 431-437).
`id` is the creation (push) index of the edge; `prevId` is the id of the
backward-linked open edge, `none` for an open edge. -/
structure Edge where
  id : Nat
  gridOrd : Int
  ev : MEvent
  prevId : Option Nat
  definite : Bool
deriving DecidableEq, Repr

/-- Week boundaries emitted for one event (lines 507-510): grid ordinals
`followingSunday, followingSunday + 7, ...` strictly below `e`, where
`followingSunday = s - s % 7 + 7` with JavaScript `%` (truncated; `Int.tmod`). -/
def weekBoundaries (s e : Int) : List Int :=
  (List.range ((e - (s - Int.tmod s 7 + 7) + 6) / 7).toNat).map
    (fun (i : Nat) => s - Int.tmod s 7 + 7 + 7 * (i : Int))

/-- Inner loop of `decomposeMultiEdges` after the leading open edge: for each
week boundary push a linked indefinite close edge and a fresh indefinite open
edge, and finally push the definite trailing close edge linked to the last
open edge (lines 507-517). -/
def segEdges (ev : MEvent) (base pid : Nat) : List Int → Int → List Edge
  | [], e => [⟨base, e, ev, some pid, true⟩]
  | b :: rest, e =>
    ⟨base, b, ev, some pid, false⟩ :: ⟨base + 1, b, ev, none, false⟩ ::
      segEdges ev (base + 2) (base + 1) rest e

/-- All edges of one event (lines 501-517): definite open at
`gridOrd(startDate)`, then `segEdges`.  `cal` is `calendarStart`, so
`gridOrd(d) = d - cal`. -/
def decomposeEvent (cal : Int) (ev : MEvent) (base : Nat) : List Edge :=
  ⟨base, ev.startDate - cal, ev, none, true⟩ ::
    segEdges ev (base + 1) base
      (weekBoundaries (ev.startDate - cal) (ev.startDate - cal + ev.mlen))
      (ev.startDate - cal + ev.mlen)

/-- Number of edges one event contributes. -/
def edgeCount (cal : Int) (ev : MEvent) : Nat :=
  2 * (weekBoundaries (ev.startDate - cal) (ev.startDate - cal + ev.mlen)).length + 2

/-- Model of `CalendarRenderer.decomposeMultiEdges` (lines 499-520),
threading the global push index as the edge id. -/
def decomposeFrom (cal : Int) : List MEvent → Nat → List Edge
  | [], _ => []
  | ev :: rest, base =>
    decomposeEvent cal ev base ++ decomposeFrom cal rest (base + edgeCount cal ev)

/-- The decomposer applied to an event list with ids starting at 0. -/
def decomposeMultiEdges (cal : Int) (evs : List MEvent) : List Edge :=
  decomposeFrom cal evs 0

/-- Model of `CalendarRenderer.compareMultiEdge` (lines 522-531).  The
second level is JavaScript `a.prev != b.prev`, a reference comparison,
modelled by id inequality. -/
def compareMultiEdge (a b : Edge) : Int :=
  if a.gridOrd ≠ b.gridOrd then (if a.gridOrd < b.gridOrd then -1 else 1)
  else if a.prevId ≠ b.prevId then (if a.prevId ≠ none then -1 else 1)
  else if a.definite ≠ b.definite then (if a.definite = false then -1 else 1)
  else eventCompare a.ev b.ev

theorem strCmp_swap (a b : List Char) : strCmp b a = -strCmp a b := by
  induction a generalizing b with
  | nil => cases b <;> simp [strCmp]
  | cons x xs ih =>
    cases b with
    | nil => simp [strCmp]
    | cons y ys =>
      simp only [strCmp]
      rcases lt_trichotomy x y with h | h | h
      · rw [if_neg (lt_asymm h), if_pos h, if_pos h]
        norm_num
      · subst h
        rw [if_neg (lt_irrefl x), if_neg (lt_irrefl x), if_neg (lt_irrefl x),
          if_neg (lt_irrefl x)]
        exact ih ys
      · rw [if_pos h, if_neg (lt_asymm h), if_pos h]

theorem eventCompare_swap (x y : MEvent) : eventCompare y x = -eventCompare x y := by
  unfold eventCompare
  rw [strCmp_swap x.startKey y.startKey, strCmp_swap x.endKey y.endKey,
    strCmp_swap x.titleKey y.titleKey]
  by_cases h1 : strCmp x.startKey y.startKey = 0 <;>
    by_cases h2 : strCmp x.endKey y.endKey = 0 <;>
    simp [h1, h2]

theorem compareMultiEdge_swap (a b : Edge)
    (h : a.gridOrd ≠ b.gridOrd ∨ a.prevId = none ∨ b.prevId = none ∨
      a.prevId = b.prevId) :
    compareMultiEdge b a = -compareMultiEdge a b := by
  unfold compareMultiEdge
  by_cases hg : a.gridOrd = b.gridOrd
  · rw [hg]
    rw [if_neg (by simp : ¬(b.gridOrd ≠ b.gridOrd)),
      if_neg (by simp : ¬(b.gridOrd ≠ b.gridOrd))]
    by_cases hp : a.prevId = b.prevId
    · rw [hp]
      rw [if_neg (by simp : ¬(b.prevId ≠ b.prevId)),
        if_neg (by simp : ¬(b.prevId ≠ b.prevId))]
      by_cases hd : a.definite = b.definite
      · rw [hd]
        rw [if_neg (by simp : ¬(b.definite ≠ b.definite)),
          if_neg (by simp : ¬(b.definite ≠ b.definite))]
        exact eventCompare_swap a.ev b.ev
      · rw [if_pos (fun hc => hd hc.symm), if_pos hd]
        cases ha : a.definite <;> cases hb : b.definite <;> simp_all
    · rcases h with h | h | h | h
      · exact absurd hg h
      · rw [if_pos (fun hc => hp hc.symm), if_pos hp]
        have hb : b.prevId ≠ none := fun hc => hp (h.trans hc.symm)
        rw [if_pos hb, if_neg (by simp [h])]
      · rw [if_pos (fun hc => hp hc.symm), if_pos hp]
        have ha : a.prevId ≠ none := fun hc => hp (hc.trans h.symm)
        rw [if_pos ha, if_neg (by simp [h])]
        norm_num
      · exact absurd h hp
  · rw [if_pos hg, if_pos (fun hc => hg hc.symm)]
    rcases lt_trichotomy a.gridOrd b.gridOrd with hlt | heq | hgt
    · rw [if_pos hlt, if_neg (by omega : ¬b.gridOrd < a.gridOrd)]
      norm_num
    · exact absurd heq hg
    · rw [if_pos hgt, if_neg (by omega : ¬a.gridOrd < b.gridOrd)]

/-- Concrete events for the C1 counterexample: two `DateEvent`s in the 2025
grid, March 9-13 and March 10-13 (raw exclusive ends), whose final close
edges share grid ordinal 74. -/
def cexEv1 : MEvent :=
  ⟨daysFromCivil 2025 3 9, 4, "2025-03-09".toList, "2025-03-13".toList, "a".toList⟩

def cexEv2 : MEvent :=
  ⟨daysFromCivil 2025 3 10, 3, "2025-03-10".toList, "2025-03-13".toList, "b".toList⟩

def cexClose1 : Edge := ⟨1, 74, cexEv1, some 0, true⟩

def cexClose2 : Edge := ⟨3, 74, cexEv2, some 2, true⟩

/-- C1 counterexample: the decomposer emits, for the two concrete events,
two distinct close edges at the same grid ordinal (with distinct backward
links); `compareMultiEdge` returns -1 on them in both argument orders, so
`compareMultiEdge a b < 0` holds while `compareMultiEdge b a > 0` fails:
the comparator is not a strict total order on the decomposer's edges. -/
theorem compareMultiEdge_not_strict_counterexample :
    (decomposeMultiEdges (calendarStart 2025) [cexEv1, cexEv2]).get? 1 =
        some cexClose1 ∧
      (decomposeMultiEdges (calendarStart 2025) [cexEv1, cexEv2]).get? 3 =
        some cexClose2 ∧
      cexClose1 ≠ cexClose2 ∧
      compareMultiEdge cexClose1 cexClose2 < 0 ∧
      ¬ compareMultiEdge cexClose2 cexClose1 > 0 ∧
      compareMultiEdge cexClose2 cexClose1 < 0 := by
  decide

/-- C1 (corrected): `compareMultiEdge` orders by ascending grid ordinal and,
at equal ordinals, close edges (non-null backward link) before open edges;
the indefinite-before-definite level and the owning events' `compare`
tie-break are reached only when the two backward links are identical (in
particular for pairs of open edges).  The strict-order biconditional
`compare(a,b) < 0 iff compare(b,a) > 0` holds for every pair except two
close edges with distinct backward links at the same grid ordinal, where the
comparator returns -1 in both directions because `a.prev != b.prev` compares
references. -/
theorem compareMultiEdge_strict_unless_close_pair (a b : Edge)
    (h : a.gridOrd ≠ b.gridOrd ∨ a.prevId = none ∨ b.prevId = none ∨
      a.prevId = b.prevId) :
    (compareMultiEdge a b < 0 ↔ compareMultiEdge b a > 0) ∧
      (a.gridOrd < b.gridOrd → compareMultiEdge a b < 0) ∧
      (a.gridOrd = b.gridOrd → a.prevId ≠ none → b.prevId = none →
        compareMultiEdge a b < 0) := by
  refine ⟨by rw [compareMultiEdge_swap a b h]; omega, fun hlt => ?_, fun hg hpa hpb => ?_⟩
  · unfold compareMultiEdge
    rw [if_pos (by omega : a.gridOrd ≠ b.gridOrd), if_pos hlt]
    norm_num
  · unfold compareMultiEdge
    rw [if_neg (by simp [hg] : ¬(a.gridOrd ≠ b.gridOrd)),
      if_pos (by simp [hpb]; exact fun hc => hpa hc : a.prevId ≠ b.prevId),
      if_pos hpa]
    norm_num

/-- C1 witness: the amended statement at a concrete open/close pair at the
same ordinal. -/
theorem compareMultiEdge_strict_unless_close_pair_witness :
    ((5 : Int) ≠ 5 ∨ (none : Option Nat) = none ∨ (some 0 : Option Nat) = none ∨
        (none : Option Nat) = some 0) ∧
      ((compareMultiEdge ⟨2, 5, cexEv1, none, true⟩ ⟨1, 5, cexEv2, some 0, true⟩ < 0 ↔
          compareMultiEdge ⟨1, 5, cexEv2, some 0, true⟩ ⟨2, 5, cexEv1, none, true⟩ > 0) ∧
        ((5 : Int) < 5 →
          compareMultiEdge ⟨2, 5, cexEv1, none, true⟩ ⟨1, 5, cexEv2, some 0, true⟩ < 0) ∧
        ((5 : Int) = 5 → (none : Option Nat) ≠ none → (some 0 : Option Nat) = none →
          compareMultiEdge ⟨2, 5, cexEv1, none, true⟩ ⟨1, 5, cexEv2, some 0, true⟩ < 0)) :=
  ⟨Or.inr (Or.inl rfl),
    compareMultiEdge_strict_unless_close_pair ⟨2, 5, cexEv1, none, true⟩
      ⟨1, 5, cexEv2, some 0, true⟩ (Or.inr (Or.inl rfl))⟩

/-!
Lane allocator (`CalendarRenderer.placeMultiEdges`, lines 533-552).  The
JavaScript `places` array with holes is a `List Bool` (`true` = occupied
lane, `false` = hole); `delete places[i]` is `setFalse`, the trailing-hole
popping loop is `dropTrailingFalse`, and `places[place] = true` (which can
only extend the array by one, since the scan stops at the length) is
`jsSetTrue`.  The sparse `allocatedSpace` array is modelled by the ordered
list of writes to it, and the mutated `edge.place` fields by an association
list keyed by the open edge's id.
-/

/-- Occupancy test `places[p] != null`: `false` beyond the length. -/
def occ : List Bool → Nat → Bool
  | [], _ => false
  | b :: _, 0 => b
  | _ :: t, p + 1 => occ t p

/-- The scan of lines 539-540: smallest index holding a hole, or the length. -/
def firstFree : List Bool → Nat
  | [] => 0
  | b :: t => if b then firstFree t + 1 else 0

/-- JavaScript assignment `places[p] = true` (extends with holes when `p`
is past the end, though the allocator only ever appends directly). -/
def jsSetTrue : List Bool → Nat → List Bool
  | [], 0 => [true]
  | [], p + 1 => false :: jsSetTrue [] p
  | _ :: t, 0 => true :: t
  | b :: t, p + 1 => b :: jsSetTrue t p

/-- JavaScript `delete places[p]`: a hole within bounds, no-op beyond. -/
def setFalse : List Bool → Nat → List Bool
  | [], _ => []
  | _ :: t, 0 => false :: t
  | b :: t, p + 1 => b :: setFalse t p

/-- The popping loop of line 547: remove the maximal all-hole suffix. -/
def dropTrailingFalse : List Bool → List Bool
  | [] => []
  | b :: t =>
    match dropTrailingFalse t with
    | [] => if b then [true] else []
    | x :: r => b :: x :: r

/-- Number of occupied lanes. -/
def countTrue (l : List Bool) : Nat := l.count true

/-- First-match association lookup; models reading a mutated `place` field
through the backward reference. -/
def lookupNat (l : List (Nat × Nat)) (k : Nat) : Option Nat :=
  (l.find? (fun p => p.1 = k)).map (fun p => p.2)

/-- Sweep state: the `places` array, the write log of `allocatedSpace`
(pairs of grid ordinal and recorded value), and the `place` assignments. -/
structure PState where
  places : List Bool
  alloc : List (Int × Nat)
  placeOf : List (Nat × Nat)
deriving DecidableEq, Repr

/-- One iteration of the sweep loop (lines 536-550). -/
def placeStep (s : PState) (e : Edge) : PState :=
  match e.prevId with
  | none =>
    let p := firstFree s.places
    let pl := jsSetTrue s.places p
    ⟨pl, s.alloc ++ [(e.gridOrd, pl.length)], s.placeOf ++ [(e.id, p)]⟩
  | some i =>
    match lookupNat s.placeOf i with
    | none => s
    | some p =>
      let pl := dropTrailingFalse (setFalse s.places p)
      ⟨pl, s.alloc ++ [(e.gridOrd, pl.length)], s.placeOf⟩

/-- Model of `CalendarRenderer.placeMultiEdges` (lines 533-552). -/
def placeMultiEdges (edges : List Edge) : PState :=
  edges.foldl placeStep ⟨[], [], []⟩

/-- Segments recoverable from an edge list: for each close edge, the open
edge its backward link references, as a pair (open ordinal, close ordinal). -/
def segmentsOf (es : List Edge) : List (Int × Int) :=
  es.filterMap (fun c =>
    match c.prevId with
    | none => none
    | some i => (es.find? (fun o => o.id = i)).map (fun o => (o.gridOrd, c.gridOrd)))

/-- Number of segments whose half-open ordinal range contains `x`. -/
def overlapCount (es : List Edge) (x : Int) : Nat :=
  (segmentsOf es).countP (fun sg => decide (sg.1 ≤ x ∧ x < sg.2))

/-- Final recorded `allocatedSpace` value at a grid ordinal: the last write
at that ordinal. -/
def lastAllocAt (s : PState) (g : Int) : Option Nat :=
  ((s.alloc.filter (fun p => p.1 = g)).getLast?).map Prod.snd

theorem occ_ge_length (l : List Bool) (p : Nat) (h : l.length ≤ p) : occ l p = false := by
  induction l generalizing p with
  | nil => rfl
  | cons b t ih =>
    cases p with
    | zero => simp at h
    | succ q => exact ih q (by simpa using h)

theorem occ_jsSetTrue_self (l : List Bool) (p : Nat) : occ (jsSetTrue l p) p = true := by
  induction l generalizing p with
  | nil =>
    induction p with
    | zero => rfl
    | succ q ih => simpa [jsSetTrue, occ] using ih
  | cons b t ih =>
    cases p with
    | zero => rfl
    | succ q => simpa [jsSetTrue, occ] using ih q

theorem occ_jsSetTrue_ne (l : List Bool) (p q : Nat) (h : q ≠ p) :
    occ (jsSetTrue l p) q = occ l q := by
  induction l generalizing p q with
  | nil =>
    induction p generalizing q with
    | zero => cases q with
      | zero => exact absurd rfl h
      | succ r => rfl
    | succ p2 ih =>
      cases q with
      | zero => rfl
      | succ r => simpa [jsSetTrue, occ] using ih r (fun hc => h (by omega))
  | cons b t ih =>
    cases p with
    | zero =>
      cases q with
      | zero => exact absurd rfl h
      | succ r => rfl
    | succ p2 =>
      cases q with
      | zero => rfl
      | succ r => simpa [jsSetTrue, occ] using ih p2 r (fun hc => h (by omega))

theorem length_jsSetTrue (l : List Bool) (p : Nat) :
    (jsSetTrue l p).length = max l.length (p + 1) := by
  induction l generalizing p with
  | nil =>
    induction p with
    | zero => rfl
    | succ q ih => simp [jsSetTrue] at ih ⊢; omega
  | cons b t ih =>
    cases p with
    | zero => simp [jsSetTrue]
    | succ q => simp [jsSetTrue, ih q]; omega

theorem occ_setFalse_self (l : List Bool) (p : Nat) : occ (setFalse l p) p = false := by
  induction l generalizing p with
  | nil => rfl
  | cons b t ih =>
    cases p with
    | zero => rfl
    | succ q => simpa [setFalse, occ] using ih q

theorem occ_setFalse_ne (l : List Bool) (p q : Nat) (h : q ≠ p) :
    occ (setFalse l p) q = occ l q := by
  induction l generalizing p q with
  | nil => rfl
  | cons b t ih =>
    cases p with
    | zero =>
      cases q with
      | zero => exact absurd rfl h
      | succ r => rfl
    | succ p2 =>
      cases q with
      | zero => rfl
      | succ r => simpa [setFalse, occ] using ih p2 r (fun hc => h (by omega))

theorem occ_dropTrailingFalse (l : List Bool) (p : Nat) :
    occ (dropTrailingFalse l) p = occ l p := by
  induction l generalizing p with
  | nil => rfl
  | cons b t ih =>
    simp only [dropTrailingFalse]
    cases hdt : dropTrailingFalse t with
    | nil =>
      have hall : ∀ q, occ t q = false := fun q => by
        have := ih q
        rw [hdt] at this
        simpa [occ] using this.symm
      by_cases hb : b
      · subst hb
        cases p with
        | zero => rfl
        | succ q => simp [occ, hall q]
      · simp only [if_neg hb]
        cases p with
        | zero =>
          cases b with
          | false => rfl
          | true => exact absurd rfl hb
        | succ q => simp [occ, hall q]
    | cons x r =>
      cases p with
      | zero => rfl
      | succ q =>
        have := ih q
        rw [hdt] at this
        simpa [occ] using this

/-- No trailing hole: the array is empty or its last slot is occupied. -/
def noTrailingFalse (l : List Bool) : Prop := l = [] ∨ occ l (l.length - 1) = true

theorem noTrailingFalse_dropTrailingFalse (l : List Bool) :
    noTrailingFalse (dropTrailingFalse l) := by
  induction l with
  | nil => exact Or.inl rfl
  | cons b t ih =>
    simp only [dropTrailingFalse]
    cases hdt : dropTrailingFalse t with
    | nil =>
      by_cases hb : b
      · subst hb
        exact Or.inr rfl
      · simp only [if_neg hb]
        exact Or.inl rfl
    | cons x r =>
      rcases ih with ih | ih
      · rw [hdt] at ih
        cases ih
      · rw [hdt] at ih
        refine Or.inr ?_
        simp only [List.length_cons]
        have hlen : (x :: r).length - 1 + 1 = (x :: r).length := by simp
        simpa [occ, List.length_cons] using ih

theorem noTrailingFalse_jsSetTrue (l : List Bool) (p : Nat) (h : noTrailingFalse l) :
    noTrailingFalse (jsSetTrue l p) := by
  refine Or.inr ?_
  rw [length_jsSetTrue]
  by_cases hp : l.length ≤ p
  · have hm : max l.length (p + 1) - 1 = p := by omega
    rw [hm]
    exact occ_jsSetTrue_self l p
  · have hm : max l.length (p + 1) - 1 = l.length - 1 := by omega
    rw [hm]
    by_cases hpe : l.length - 1 = p
    · rw [hpe]
      exact occ_jsSetTrue_self l p
    · rw [occ_jsSetTrue_ne l p _ hpe]
      rcases h with h | h
      · rw [h] at hp
        simp at hp
      · exact h

theorem noTrailingFalse_placeStep (s : PState) (e : Edge)
    (h : noTrailingFalse s.places) : noTrailingFalse (placeStep s e).places := by
  rcases he : e.prevId with _ | i
  · simp only [placeStep, he]
    exact noTrailingFalse_jsSetTrue s.places (firstFree s.places) h
  · simp only [placeStep, he]
    rcases hl : lookupNat s.placeOf i with _ | p
    · exact h
    · exact noTrailingFalse_dropTrailingFalse (setFalse s.places p)

theorem noTrailingFalse_placeRun (s : PState) (edges : List Edge)
    (h : noTrailingFalse s.places) :
    noTrailingFalse (edges.foldl placeStep s).places := by
  induction edges generalizing s with
  | nil => exact h
  | cons e rest ih => exact ih _ (noTrailingFalse_placeStep s e h)

/-- Concrete scenario for the C3 counterexample: five `DateEvent`s in the
first grid week of 2025.  `b`, `c` span ordinals [0,3), `a`, `d` span [1,5),
`e` spans [3,5). -/
def mevA : MEvent :=
  ⟨daysFromCivil 2024 12 30, 4, "2024-12-30".toList, "2025-01-03".toList, "a".toList⟩

def mevB : MEvent :=
  ⟨daysFromCivil 2024 12 29, 3, "2024-12-29".toList, "2025-01-01".toList, "b".toList⟩

def mevC : MEvent :=
  ⟨daysFromCivil 2024 12 29, 3, "2024-12-29".toList, "2025-01-01".toList, "c".toList⟩

def mevD : MEvent :=
  ⟨daysFromCivil 2024 12 30, 4, "2024-12-30".toList, "2025-01-03".toList, "d".toList⟩

def mevE : MEvent :=
  ⟨daysFromCivil 2025 1 1, 2, "2025-01-01".toList, "2025-01-03".toList, "e".toList⟩

/-- The event list handed to the decomposer in the C3 scenario. -/
def evsC3 : List MEvent := [mevB, mevC, mevA, mevD, mevE]

/-- The canonically sorted edge list of the C3 scenario (a sorted permutation
of the decomposer's output; edge ids are the decomposer's creation indices:
b = 0/1, c = 2/3, a = 4/5, d = 6/7, e = 8/9). -/
def sortedC3 : List Edge :=
  [⟨0, 0, mevB, none, true⟩, ⟨2, 0, mevC, none, true⟩,
    ⟨4, 1, mevA, none, true⟩, ⟨6, 1, mevD, none, true⟩,
    ⟨1, 3, mevB, some 0, true⟩, ⟨3, 3, mevC, some 2, true⟩,
    ⟨8, 3, mevE, none, true⟩,
    ⟨5, 5, mevA, some 4, true⟩, ⟨7, 5, mevD, some 6, true⟩,
    ⟨9, 5, mevE, some 8, true⟩]

/-- C3 counterexample: in the C3 scenario the write recorded at grid ordinal
3 (the final `allocatedSpace[3]`) is 4, but at that point of the sweep only
3 lanes are occupied (`places = [true, false, true, true]` - lane 1 is a
freed hole below the still-occupied lane 3), and exactly 3 segments overlap
ordinal 3.  The reserved space over-allocates: it is the watermark, not the
occupied-lane count, and lane 3 is in use where only 3 segments overlap. -/
theorem allocatedSpace_not_count_counterexample :
    sortedC3.Perm (decomposeMultiEdges (calendarStart 2025) evsC3) ∧
      List.Pairwise (fun a b => compareMultiEdge a b ≤ 0) sortedC3 ∧
      (placeMultiEdges (sortedC3.take 7)).places = [true, false, true, true] ∧
      countTrue (placeMultiEdges (sortedC3.take 7)).places = 3 ∧
      (placeMultiEdges (sortedC3.take 7)).alloc.getLast? = some (3, 4) ∧
      lastAllocAt (placeMultiEdges sortedC3) 3 = some 4 ∧
      overlapCount (decomposeMultiEdges (calendarStart 2025) evsC3) 3 = 3 ∧
      (4 : Nat) ≠ 3 := by
  decide

theorem placeStep_alloc_spec (s : PState) (e : Edge) :
    ((placeStep s e).alloc = s.alloc ∧ (placeStep s e).places = s.places) ∨
      (placeStep s e).alloc =
        s.alloc ++ [(e.gridOrd, (placeStep s e).places.length)] := by
  cases he : e.prevId with
  | none =>
    right
    simp only [placeStep, he]
  | some i =>
    cases hl : lookupNat s.placeOf i with
    | none =>
      left
      simp [placeStep, he, hl]
    | some p =>
      right
      simp only [placeStep, he, hl]

/-- C3 (corrected): every value written to `allocatedSpace` equals the
watermark of the `places` array at that point in the sweep - its length,
which is one past the highest occupied lane, every lane at or above it being
free and the lane just below it occupied whenever it is positive.  The
watermark is an upper bound on the current count of occupied lanes, but not
always equal to it (nor to the overlap count): freed holes below a
still-occupied high lane keep the recorded value high. -/
theorem allocatedSpace_records_watermark (l1 : List Edge) (e : Edge) (v : Nat)
    (hw : (placeMultiEdges (l1 ++ [e])).alloc =
      (placeMultiEdges l1).alloc ++ [(e.gridOrd, v)]) :
    v = (placeMultiEdges (l1 ++ [e])).places.length ∧
      countTrue (placeMultiEdges (l1 ++ [e])).places ≤ v ∧
      (∀ p, v ≤ p → occ (placeMultiEdges (l1 ++ [e])).places p = false) ∧
      (0 < v → occ (placeMultiEdges (l1 ++ [e])).places (v - 1) = true) := by
  have hfold : placeMultiEdges (l1 ++ [e]) = placeStep (placeMultiEdges l1) e := by
    unfold placeMultiEdges
    rw [List.foldl_append]
    rfl
  rw [hfold] at hw ⊢
  have hv : v = (placeStep (placeMultiEdges l1) e).places.length := by
    rcases placeStep_alloc_spec (placeMultiEdges l1) e with ⟨ha, _⟩ | ha
    · rw [ha] at hw
      have := congrArg List.length hw
      simp at this
    · rw [ha] at hw
      have h2 := List.append_cancel_left hw
      simp only [List.cons.injEq, Prod.mk.injEq] at h2
      exact h2.1.2.symm
  subst hv
  have hnt : noTrailingFalse (placeStep (placeMultiEdges l1) e).places :=
    noTrailingFalse_placeStep _ e (noTrailingFalse_placeRun ⟨[], [], []⟩ l1 (Or.inl rfl))
  refine ⟨rfl, List.count_le_length true _, fun p hp => occ_ge_length _ p hp, fun hpos => ?_⟩
  rcases hnt with hnt | hnt
  · rw [hnt] at hpos
    simp at hpos
  · exact hnt

/-- C3 witness: the amended statement at a single concrete open edge. -/
theorem allocatedSpace_records_watermark_witness :
    (placeMultiEdges ([] ++ [⟨0, 2, mevB, none, true⟩])).alloc =
        (placeMultiEdges []).alloc ++ [((2 : Int), 1)] ∧
      ((1 : Nat) = (placeMultiEdges ([] ++ [⟨0, 2, mevB, none, true⟩])).places.length ∧
        countTrue (placeMultiEdges ([] ++ [⟨0, 2, mevB, none, true⟩])).places ≤ 1 ∧
        (∀ p, 1 ≤ p → occ (placeMultiEdges ([] ++ [⟨0, 2, mevB, none, true⟩])).places p = false) ∧
        (0 < 1 → occ (placeMultiEdges ([] ++ [⟨0, 2, mevB, none, true⟩])).places (1 - 1) = true)) :=
  ⟨by decide, allocatedSpace_records_watermark [] ⟨0, 2, mevB, none, true⟩ 1 (by decide)⟩

/-!
Decomposer structure (claim C7): the edge list of one event alternates
open/close, each close backward-linked to the open just before it; the
segment ordinal pairs form the chain over the cut list
`start :: weekBoundaries ++ [start + multiLength]`.
-/

/-- Consecutive (open, close) ordinal pairs of an alternating edge list. -/
def pairUp : List Edge → List (Int × Int)
  | o :: c :: rest => (o.gridOrd, c.gridOrd) :: pairUp rest
  | _ => []

/-- Check that an edge list alternates open edges and close edges, each close
backward-linked to the open immediately before it. -/
def pairsLinked : List Edge → Bool
  | [] => true
  | [_] => false
  | o :: c :: rest =>
    decide (o.prevId = none) && decide (c.prevId = some o.id) && pairsLinked rest

/-- Consecutive pairs of a cut list. -/
def chainPairs (l : List Int) : List (Int × Int) := l.zip l.tail

/-- The cut list of one event: start ordinal, week boundaries, end ordinal. -/
def eventCuts (cal : Int) (ev : MEvent) : List Int :=
  (ev.startDate - cal) ::
    (weekBoundaries (ev.startDate - cal) (ev.startDate - cal + ev.mlen) ++
      [ev.startDate - cal + ev.mlen])

theorem pairUp_open_segEdges (ev : MEvent) (bs : List Int)
    (base oid : Nat) (oOrd : Int) (odef : Bool) (e : Int) :
    pairUp (⟨oid, oOrd, ev, none, odef⟩ :: segEdges ev base oid bs e) =
      chainPairs (oOrd :: (bs ++ [e])) := by
  induction bs generalizing base oid oOrd odef with
  | nil => rfl
  | cons b rest ih =>
    show (oOrd, b) :: pairUp (⟨base + 1, b, ev, none, false⟩ ::
        segEdges ev (base + 2) (base + 1) rest e) = _
    rw [ih (base + 2) (base + 1) b false]
    rfl

theorem pairsLinked_open_segEdges (ev : MEvent) (bs : List Int)
    (base oid : Nat) (oOrd : Int) (odef : Bool) (e : Int) :
    pairsLinked (⟨oid, oOrd, ev, none, odef⟩ :: segEdges ev base oid bs e) = true := by
  induction bs generalizing base oid oOrd odef with
  | nil => simp [segEdges, pairsLinked]
  | cons b rest ih =>
    show pairsLinked (⟨oid, oOrd, ev, none, odef⟩ :: ⟨base, b, ev, some oid, false⟩ ::
      ⟨base + 1, b, ev, none, false⟩ :: segEdges ev (base + 2) (base + 1) rest e) = true
    simp only [pairsLinked, decide_eq_true_eq]
    rw [ih (base + 2) (base + 1) b false]
    simp

theorem mem_weekBoundaries_iff (s e b : Int) (hs : 0 ≤ s) :
    b ∈ weekBoundaries s e ↔ b % 7 = 0 ∧ s < b ∧ b < e := by
  obtain ⟨q, r, rfl, hr0, hr7⟩ : ∃ q r, s = 7 * q + r ∧ 0 ≤ r ∧ r < 7 :=
    ⟨s / 7, s % 7, by omega, by omega, by omega⟩
  unfold weekBoundaries
  rw [Int.tmod_eq_emod hs (by norm_num)]
  have hmod : (7 * q + r) % 7 = r := by omega
  rw [hmod]
  constructor
  · intro hb
    rcases List.mem_map.mp hb with ⟨i, hi, rfl⟩
    have hi2 := List.mem_range.mp hi
    refine ⟨?_, by omega, by omega⟩
    have harg : 7 * q + r - r + 7 + 7 * (i : Int) = 7 * (q + 1 + i) := by ring
    rw [harg]
    exact Int.mul_emod_right 7 _
  · rintro ⟨hb7, hsb, hbe⟩
    refine List.mem_map.mpr ⟨(b / 7 - q - 1).toNat, List.mem_range.mpr ?_, ?_⟩
    · omega
    · omega

theorem chainPairs_cons_cons (a b : Int) (l : List Int) :
    chainPairs (a :: b :: l) = (a, b) :: chainPairs (b :: l) := rfl

theorem chainPairs_fst_mem : ∀ (l : List Int) (sg : Int × Int),
    sg ∈ chainPairs l → sg.1 ∈ l
  | [], sg, h => by simp [chainPairs] at h
  | [a], sg, h => by simp [chainPairs] at h
  | a :: b :: l, sg, h => by
    rw [chainPairs_cons_cons] at h
    rcases List.mem_cons.mp h with rfl | h2
    · exact List.mem_cons_self a _
    · exact List.mem_cons_of_mem a (chainPairs_fst_mem (b :: l) sg h2)

theorem chainPairs_cover_aux : ∀ (mid : List Int) (a z x : Int),
    List.Pairwise (· < ·) (a :: mid ++ [z]) →
    ((∃ sg ∈ chainPairs (a :: mid ++ [z]), sg.1 ≤ x ∧ x < sg.2) ↔ a ≤ x ∧ x < z)
  | [], a, z, x, hp => by
    simp [chainPairs]
  | b :: mid, a, z, x, hp => by
    have hshape : a :: (b :: mid) ++ [z] = a :: b :: (mid ++ [z]) := rfl
    rw [hshape, chainPairs_cons_cons]
    have hab : a < b := (List.pairwise_cons.mp hp).1 b (by simp)
    have hp2 : List.Pairwise (· < ·) (b :: mid ++ [z]) := (List.pairwise_cons.mp hp).2
    have hbz : b < z := (List.pairwise_cons.mp hp2).1 z (by simp)
    have ih := chainPairs_cover_aux mid b z x hp2
    constructor
    · rintro ⟨sg, hsg, h1, h2⟩
      rcases List.mem_cons.mp hsg with rfl | h3
      · exact ⟨h1, by omega⟩
      · have := ih.mp ⟨sg, h3, h1, h2⟩
        exact ⟨by omega, this.2⟩
    · rintro ⟨h1, h2⟩
      by_cases hxb : x < b
      · exact ⟨(a, b), List.mem_cons_self _ _, h1, hxb⟩
      · obtain ⟨sg, hsg, h3, h4⟩ := ih.mpr ⟨by omega, h2⟩
        exact ⟨sg, List.mem_cons_of_mem _ hsg, h3, h4⟩

theorem chainPairs_disjoint : ∀ (l : List Int), List.Pairwise (· < ·) l →
    List.Pairwise (fun p q : Int × Int => p.2 ≤ q.1) (chainPairs l)
  | [], _ => by simp [chainPairs]
  | [a], _ => by simp [chainPairs]
  | a :: b :: l, hp => by
    rw [chainPairs_cons_cons]
    refine List.pairwise_cons.mpr
      ⟨?_, chainPairs_disjoint (b :: l) (List.pairwise_cons.mp hp).2⟩
    intro q hq
    have h1 : q.1 ∈ b :: l := chainPairs_fst_mem _ q hq
    have hp2 := (List.pairwise_cons.mp hp).2
    rcases List.mem_cons.mp h1 with h | h
    · simp [h]
    · have : b < q.1 := (List.pairwise_cons.mp hp2).1 _ h
      show b ≤ q.1
      omega

theorem eventCuts_pairwise (cal : Int) (ev : MEvent)
    (hs : 0 ≤ ev.startDate - cal) (hl : 0 < ev.mlen) :
    List.Pairwise (· < ·) (eventCuts cal ev) := by
  unfold eventCuts
  refine List.pairwise_cons.mpr ⟨?_, ?_⟩
  · intro x hx
    rcases List.mem_append.mp hx with h | h
    · exact ((mem_weekBoundaries_iff _ _ x hs).mp h).2.1
    · simp only [List.mem_singleton] at h
      subst h
      omega
  · refine List.pairwise_append.mpr ⟨?_, by simp, ?_⟩
    · unfold weekBoundaries
      refine List.pairwise_map.mpr ?_
      exact (List.pairwise_lt_range _).imp (fun hij => by omega)
    · intro x hx y hy
      simp only [List.mem_singleton] at hy
      subst hy
      exact ((mem_weekBoundaries_iff _ _ x hs).mp hx).2.2

/-- C7 counterexample: for a concrete spanning event (March 9-13, 2025,
`multiLength() = 4`), the decomposer emits one open edge at ordinal 70 and
one linked close edge at ordinal 74: the last close ordinal minus the first
open ordinal is 4 = `multiLength()`, not `multiLength() + 1 = 5`. -/
theorem decompose_segment_sum_counterexample :
    decomposeEvent (calendarStart 2025) cexEv1 0 =
        [⟨0, 70, cexEv1, none, true⟩, ⟨1, 74, cexEv1, some 0, true⟩] ∧
      cexEv1.mlen = 4 ∧ (74 : Int) - 70 = cexEv1.mlen ∧
      ((74 : Int) - 70 ≠ cexEv1.mlen + 1) := by
  decide

/-- C7 (corrected): for every spanning event with nonnegative start ordinal
and positive `multiLength()`, the decomposer's edge list alternates open and
close edges, each close backward-linked to the open immediately before it;
the segment ordinal pairs are exactly the consecutive pairs of the cut list
`start :: weekBoundaries ++ [start + multiLength()]`; the internal cuts are
exactly the multiples of 7 strictly between open and final close; the
segments tile `[start, start + multiLength())` with no gaps and no overlaps;
and the last close ordinal minus the first open ordinal is `multiLength()`,
not `multiLength() + 1`. -/
theorem decompose_tiles (cal : Int) (ev : MEvent) (base : Nat)
    (hs : 0 ≤ ev.startDate - cal) (hl : 0 < ev.mlen) :
    pairUp (decomposeEvent cal ev base) = chainPairs (eventCuts cal ev) ∧
      pairsLinked (decomposeEvent cal ev base) = true ∧
      (∀ b ∈ weekBoundaries (ev.startDate - cal) (ev.startDate - cal + ev.mlen),
        b % 7 = 0 ∧ ev.startDate - cal < b ∧ b < ev.startDate - cal + ev.mlen) ∧
      (∀ x : Int, (∃ sg ∈ chainPairs (eventCuts cal ev), sg.1 ≤ x ∧ x < sg.2) ↔
        ev.startDate - cal ≤ x ∧ x < ev.startDate - cal + ev.mlen) ∧
      List.Pairwise (fun p q : Int × Int => p.2 ≤ q.1) (chainPairs (eventCuts cal ev)) ∧
      (eventCuts cal ev).head? = some (ev.startDate - cal) ∧
      (eventCuts cal ev).getLast? = some (ev.startDate - cal + ev.mlen) := by
  refine ⟨pairUp_open_segEdges ev _ _ _ _ _ _,
    pairsLinked_open_segEdges ev _ _ _ _ _ _,
    fun b hb => (mem_weekBoundaries_iff _ _ b hs).mp hb,
    fun x => ?_, chainPairs_disjoint _ (eventCuts_pairwise cal ev hs hl), rfl, ?_⟩
  · exact chainPairs_cover_aux _ _ _ x (eventCuts_pairwise cal ev hs hl)
  · show ((ev.startDate - cal) ::
      weekBoundaries (ev.startDate - cal) (ev.startDate - cal + ev.mlen) ++
        [ev.startDate - cal + ev.mlen]).getLast? = _
    rw [show (ev.startDate - cal) ::
        weekBoundaries (ev.startDate - cal) (ev.startDate - cal + ev.mlen) ++
          [ev.startDate - cal + ev.mlen] =
        ((ev.startDate - cal) ::
          weekBoundaries (ev.startDate - cal) (ev.startDate - cal + ev.mlen)) ++
          [ev.startDate - cal + ev.mlen] from rfl]
    rw [List.getLast?_concat]

/-- C7 witness: the amended statement's decidable components at a concrete
event spanning a week boundary (start ordinal 8, length 10, one boundary at
14). -/
theorem decompose_tiles_witness :
    (0 : Int) ≤ 8 - 0 ∧ (0 : Int) < 10 ∧
      pairUp (decomposeEvent 0 ⟨8, 10, "s".toList, "e".toList, "t".toList⟩ 0) =
        chainPairs (eventCuts 0 ⟨8, 10, "s".toList, "e".toList, "t".toList⟩) ∧
      pairsLinked (decomposeEvent 0 ⟨8, 10, "s".toList, "e".toList, "t".toList⟩ 0) = true :=
  ⟨by decide, by decide,
    (decompose_tiles 0 ⟨8, 10, "s".toList, "e".toList, "t".toList⟩ 0
      (by decide) (by decide)).1,
    (decompose_tiles 0 ⟨8, 10, "s".toList, "e".toList, "t".toList⟩ 0
      (by decide) (by decide)).2.1⟩

/-!
Raw event values and the normal-event render path (claims C8, C9).  A raw
`startAt`/`endAt` string is kept structured, so that both its rendered
character list (what `includes("T")` and `localeCompare` see) and its parsed
instant (what `Temporal` computes) are derived from one value.  The system
time zone is modelled as a fixed offset `zone` in minutes.
-/

/-- A raw ISO-8601 value: a date-only string `YYYY-MM-DD`, or a date-time
string `YYYY-MM-DDTHH:MI:00` followed by `Z` (offset `none`) or an explicit
`+HH:MM`/`-HH:MM` offset in minutes. -/
inductive RawVal where
  | date (y mo d : Int)
  | ts (y mo d h mi : Int) (offMin : Option Int)
deriving DecidableEq, Repr

def digitChar (n : Int) : Char := Char.ofNat (48 + (n % 10).toNat)

def pad2 (n : Int) : List Char := [digitChar (n / 10), digitChar n]

def pad4 (n : Int) : List Char :=
  [digitChar (n / 1000), digitChar (n / 100), digitChar (n / 10), digitChar n]

def dashChar : Char := Char.ofNat 45

def colonChar : Char := Char.ofNat 58

def plusChar : Char := Char.ofNat 43

def tChar : Char := Char.ofNat 84

def zChar : Char := Char.ofNat 90

def renderDatePart (y mo d : Int) : List Char :=
  pad4 y ++ [dashChar] ++ pad2 mo ++ [dashChar] ++ pad2 d

def absInt (o : Int) : Int := if o < 0 then -o else o

def renderOffset : Option Int → List Char
  | none => [zChar]
  | some o =>
    (if o < 0 then [dashChar] else [plusChar]) ++
      pad2 (absInt o / 60) ++ [colonChar] ++ pad2 (absInt o % 60)

/-- The character list of a raw value's ISO string. -/
def renderRaw : RawVal → List Char
  | .date y mo d => renderDatePart y mo d
  | .ts y mo d h mi off =>
    renderDatePart y mo d ++ [tChar] ++ pad2 h ++ [colonChar] ++ pad2 mi ++
      [colonChar] ++ pad2 0 ++ renderOffset off

/-- JavaScript `includes("T")` on the rendered string (lines 582-583). -/
def hasTimeRaw (r : RawVal) : Bool := decide (tChar ∈ renderRaw r)

/-- Epoch minutes of the instant a timed raw value denotes: its civil
reading minus its UTC offset. -/
def tsInstantMin : RawVal → Int
  | .date y mo d => daysFromCivil y mo d * 1440
  | .ts y mo d h mi off =>
    daysFromCivil y mo d * 1440 + h * 60 + mi -
      (match off with | none => 0 | some o => o)

/-- Model of `localDateTime` (lines 292-296): the instant converted to the
system zone, a fixed offset `zone` in minutes. -/
def localOf (zone : Int) (r : RawVal) : LocalDT :=
  ⟨(tsInstantMin r + zone) / 1440, (tsInstantMin r + zone) % 1440⟩

/-- A raw event record (interface `EventData`, lines 277-285). -/
structure EventDataM where
  title : List Char
  startAt : RawVal
  endAt : RawVal
  description : Option (List Char)
deriving DecidableEq, Repr

/-- `Event.compare` (lines 334-340) on raw records. -/
def dataCompare (x y : EventDataM) : Int :=
  if strCmp (renderRaw x.startAt) (renderRaw y.startAt) ≠ 0 then
    strCmp (renderRaw x.startAt) (renderRaw y.startAt)
  else if -strCmp (renderRaw x.endAt) (renderRaw y.endAt) ≠ 0 then
    -strCmp (renderRaw x.endAt) (renderRaw y.endAt)
  else strCmp x.title y.title

/-- `startDate` as the render pass reads it: the plain date of a date-only
value, the local calendar date of a timed value. -/
def evStartDate (zone : Int) (e : EventDataM) : Int :=
  match e.startAt with
  | .date y mo d => daysFromCivil y mo d
  | .ts _ _ _ _ _ _ => (localOf zone e.startAt).day

/-- Local start time-of-day in minutes (0 for date-only values). -/
def evStartMinute (zone : Int) (e : EventDataM) : Int :=
  match e.startAt with
  | .date _ _ _ => 0
  | .ts _ _ _ _ _ _ => (localOf zone e.startAt).minute

/-- `DateTimeEvent.multiLength` (lines 402-407) on a raw record. -/
def evDtMultiLength (zone : Int) (e : EventDataM) : Int :=
  DateTimeEventM.multiLength ⟨localOf zone e.startAt, localOf zone e.endAt⟩

/-- The classification loop of `renderVariables` (lines 581-593): throws on
a date/date-time mismatch; timed events with `multiLength() > 0` and all
date-only events go to the multi list, remaining timed events to normal. -/
def splitEvents (zone : Int) : List EventDataM →
    Except Unit (List EventDataM × List EventDataM)
  | [] => Except.ok ([], [])
  | e :: rest =>
    if hasTimeRaw e.startAt ≠ hasTimeRaw e.endAt then Except.error ()
    else
      match splitEvents zone rest with
      | Except.error u => Except.error u
      | Except.ok (n, m) =>
        if hasTimeRaw e.startAt then
          if evDtMultiLength zone e > 0 then Except.ok (n, e :: m)
          else Except.ok (e :: n, m)
        else Except.ok (n, e :: m)

/-- Insertion into an ascending-by-`compare` list. -/
def insertAsc (e : EventDataM) : List EventDataM → List EventDataM
  | [] => [e]
  | x :: xs => if dataCompare e x ≤ 0 then e :: x :: xs else x :: insertAsc e xs

/-- Ascending sort by `Event.compare`; the pop order of the stack built by
`normal.sort((a, b) => b.compare(a))` (line 603, descending array popped
from the end). -/
def sortAsc : List EventDataM → List EventDataM
  | [] => []
  | x :: xs => insertAsc x (sortAsc xs)

/-- The day loop of `renderVariables` (lines 605-608) restricted to its
observable event placement: for each of `n` grid days starting at `day`,
pop from the front of the ascending stack every event whose `startDate`
equals that day (`renderDay`, lines 478-485); returns the per-day popped
lists and the leftover stack. -/
def drainFrom (zone : Int) (day : Int) :
    Nat → List EventDataM → List (Int × List EventDataM) × List EventDataM
  | 0, st => ([], st)
  | Nat.succ k, st =>
    let sp := st.span (fun e => decide (evStartDate zone e = day))
    let rest := drainFrom zone (day + 1) k sp.2
    ((day, sp.1) :: rest.1, rest.2)

/-- The normal-event path of `renderVariables` (lines 578-608) for a target
year: classify, sort, drain over the year's grid days. -/
def renderNormalPass (zone y : Int) (data : List EventDataM) :
    Except Unit (List (Int × List EventDataM) × List EventDataM) :=
  match splitEvents zone data with
  | Except.error u => Except.error u
  | Except.ok (n, _m) =>
    Except.ok (drainFrom zone (calendarStart y) (calendarDays y).toNat (sortAsc n))

def passDays (r : Except Unit (List (Int × List EventDataM) × List EventDataM)) :
    List (Int × List EventDataM) :=
  match r with
  | Except.ok p => p.1
  | Except.error _ => []

def passLeftover (r : Except Unit (List (Int × List EventDataM) × List EventDataM)) :
    List EventDataM :=
  match r with
  | Except.ok p => p.2
  | Except.error _ => []

/-- How many times an event record appears across all day cells. -/
def countEventIn (days : List (Int × List EventDataM)) (e : EventDataM) : Nat :=
  (days.map (fun p => p.2.count e)).sum

theorem dropWhile_head_not {α : Type} (p : α → Bool) :
    ∀ (l : List α) (x : α) (xs : List α), l.dropWhile p = x :: xs → p x = false
  | [], x, xs, h => by simp at h
  | a :: t, x, xs, h => by
    by_cases hp : p a
    · rw [List.dropWhile_cons, if_pos hp] at h
      exact dropWhile_head_not p t x xs h
    · rw [List.dropWhile_cons, if_neg hp] at h
      cases h
      simpa using hp

theorem drainFrom_spec (zone : Int) : ∀ (n : Nat) (day : Int) (st : List EventDataM),
    (∀ e ∈ st, day ≤ evStartDate zone e ∧ evStartDate zone e < day + (n : Int)) →
    List.Pairwise (fun a b => evStartDate zone a ≤ evStartDate zone b) st →
    (drainFrom zone day n st).2 = [] ∧
      ((drainFrom zone day n st).1.map Prod.snd).flatten = st ∧
      (∀ p ∈ (drainFrom zone day n st).1,
        day ≤ p.1 ∧ p.1 < day + (n : Int) ∧ ∀ e ∈ p.2, evStartDate zone e = p.1) ∧
      (∀ p ∈ (drainFrom zone day n st).1, p.2.Sublist st) := by
  intro n
  induction n with
  | zero =>
    intro day st hd _hs
    have hnil : st = [] := by
      cases st with
      | nil => rfl
      | cons e t =>
        have := hd e (List.mem_cons_self e t)
        simp only [Nat.cast_zero, add_zero] at this
        omega
    subst hnil
    exact ⟨rfl, rfl, by simp [drainFrom], by simp [drainFrom]⟩
  | succ k ih =>
    intro day st hd hs
    have hstep : drainFrom zone day (k + 1) st =
        ((day, st.takeWhile (fun e => decide (evStartDate zone e = day))) ::
            (drainFrom zone (day + 1) k
              (st.dropWhile (fun e => decide (evStartDate zone e = day)))).1,
          (drainFrom zone (day + 1) k
            (st.dropWhile (fun e => decide (evStartDate zone e = day)))).2) := by
      show ((day, (st.span _).1) :: _, _) = _
      rw [List.span_eq_take_drop]
    have hsplit := List.takeWhile_append_dropWhile
      (fun e => decide (evStartDate zone e = day)) st
    have htw : ∀ e ∈ st.takeWhile (fun e => decide (evStartDate zone e = day)),
        evStartDate zone e = day :=
      fun e he => of_decide_eq_true
        (List.mem_takeWhile_imp (p := fun e => decide (evStartDate zone e = day)) he)
    have hdwsub := List.dropWhile_sublist (l := st)
      (fun e => decide (evStartDate zone e = day))
    have hdw_ge : ∀ e ∈ st.dropWhile (fun e => decide (evStartDate zone e = day)),
        day + 1 ≤ evStartDate zone e := by
      cases hdrop : st.dropWhile (fun e => decide (evStartDate zone e = day)) with
      | nil => simp
      | cons x xs =>
        intro e he
        have hx_not := dropWhile_head_not _ st x xs hdrop
        have hx_mem : x ∈ st := hdwsub.mem (by rw [hdrop]; exact List.mem_cons_self x xs)
        have hx_ge := (hd x hx_mem).1
        have hx_ne : evStartDate zone x ≠ day := of_decide_eq_false hx_not
        rcases List.mem_cons.mp he with rfl | he2
        · omega
        · have hp := List.Pairwise.sublist hdwsub hs
          rw [hdrop] at hp
          have := (List.pairwise_cons.mp hp).1 e he2
          omega
    have hdw_dates : ∀ e ∈ st.dropWhile (fun e => decide (evStartDate zone e = day)),
        day + 1 ≤ evStartDate zone e ∧ evStartDate zone e < day + 1 + (k : Int) := by
      intro e he
      have h1 := hdw_ge e he
      have h2 := (hd e (hdwsub.mem he)).2
      push_cast at h2 ⊢
      omega
    obtain ⟨ih1, ih2, ih3, ih4⟩ := ih (day + 1)
      (st.dropWhile (fun e => decide (evStartDate zone e = day)))
      hdw_dates (List.Pairwise.sublist hdwsub hs)
    rw [hstep]
    refine ⟨ih1, ?_, ?_, ?_⟩
    · simp only [List.map_cons, List.flatten_cons]
      rw [ih2]
      exact hsplit
    · intro p hp
      rcases List.mem_cons.mp hp with rfl | hp2
      · refine ⟨le_refl day, by push_cast; omega, htw⟩
      · obtain ⟨hp1, hp2e, hp3⟩ := ih3 p hp2
        exact ⟨by omega, by push_cast at hp2e ⊢; omega, hp3⟩
    · intro p hp
      rcases List.mem_cons.mp hp with rfl | hp2
      · exact List.takeWhile_sublist _
      · exact (ih4 p hp2).trans hdwsub

/-- Events for the C8 counterexample: two non-spanning timed events whose
raw strings use different UTC-offset formats.  With the system zone at UTC,
`eMixedA` (raw date March 10, offset -08:00) has local start date March 11,
2025, while `eMixedB` (raw March 10, Z) has local start date March 10; yet
`eMixedA`'s raw string sorts first. -/
def eMixedA : EventDataM :=
  ⟨"A".toList, RawVal.ts 2025 3 10 20 0 (some (-480)),
    RawVal.ts 2025 3 10 21 0 (some (-480)), none⟩

def eMixedB : EventDataM :=
  ⟨"B".toList, RawVal.ts 2025 3 10 21 0 none, RawVal.ts 2025 3 10 22 0 none, none⟩

set_option maxRecDepth 1000000 in
/-- C8 counterexample: both events are non-spanning (`multiLength() = 0`)
with start dates inside the 2025 grid, yet the render pass strands
`eMixedB`: the stack pops ascending by raw string, so `eMixedA`
(format `-08:00`, local date March 11) sits above `eMixedB` (format `Z`,
local date March 10); on March 10 the top of the stack does not match, on
March 11 only `eMixedA` is popped, and `eMixedB` is never emitted - the
stack is not drained and the event appears in no day cell. -/
theorem renderNormal_mixed_offset_counterexample :
    evDtMultiLength 0 eMixedA = 0 ∧ evDtMultiLength 0 eMixedB = 0 ∧
      hasTimeRaw eMixedA.startAt = true ∧ hasTimeRaw eMixedB.startAt = true ∧
      calendarStart 2025 ≤ evStartDate 0 eMixedA ∧
      evStartDate 0 eMixedA < calendarStart 2025 + calendarDays 2025 ∧
      calendarStart 2025 ≤ evStartDate 0 eMixedB ∧
      evStartDate 0 eMixedB < calendarStart 2025 + calendarDays 2025 ∧
      (renderNormalPass 0 2025 [eMixedA, eMixedB]).isOk = true ∧
      countEventIn (passDays (renderNormalPass 0 2025 [eMixedA, eMixedB])) eMixedA = 1 ∧
      countEventIn (passDays (renderNormalPass 0 2025 [eMixedA, eMixedB])) eMixedB = 0 ∧
      passLeftover (renderNormalPass 0 2025 [eMixedA, eMixedB]) = [eMixedB] := by
  decide

/-- C8 (corrected): over any grid window, if the popped stack is sorted
ascending by `Event.compare` (as the render pass sorts it), every event's
start date lies in the window, and the raw-string `compare` order is
consistent with the local start dates (and, within a date, with the local
start times) - as is the case when all raw values share one format and
offset - then the day loop pops every event exactly once into the cell of
its `startDate`, within each cell in ascending start time, and the stack is
fully drained.  Without the consistency hypothesis events can be stranded
(see the counterexample). -/
theorem dayStack_drains_in_order (zone day : Int) (n : Nat) (st : List EventDataM)
    (hsorted : List.Pairwise (fun a b => dataCompare a b ≤ 0) st)
    (hdates : ∀ e ∈ st, day ≤ evStartDate zone e ∧ evStartDate zone e < day + (n : Int))
    (hconsist : ∀ a ∈ st, ∀ b ∈ st, dataCompare a b ≤ 0 →
      evStartDate zone a ≤ evStartDate zone b)
    (htime : ∀ a ∈ st, ∀ b ∈ st, dataCompare a b ≤ 0 →
      evStartDate zone a = evStartDate zone b →
      evStartMinute zone a ≤ evStartMinute zone b) :
    (drainFrom zone day n st).2 = [] ∧
      ((drainFrom zone day n st).1.map Prod.snd).flatten = st ∧
      (∀ p ∈ (drainFrom zone day n st).1, ∀ e ∈ p.2, evStartDate zone e = p.1) ∧
      (∀ p ∈ (drainFrom zone day n st).1,
        List.Pairwise (fun a b => evStartMinute zone a ≤ evStartMinute zone b) p.2) := by
  have hds : List.Pairwise (fun a b => evStartDate zone a ≤ evStartDate zone b) st :=
    hsorted.imp_of_mem (fun ha hb hr => hconsist _ ha _ hb hr)
  obtain ⟨h1, h2, h3, h4⟩ := drainFrom_spec zone n day st hdates hds
  refine ⟨h1, h2, fun p hp => (h3 p hp).2.2, fun p hp => ?_⟩
  have hsub := h4 p hp
  have hcmp : List.Pairwise (fun a b => dataCompare a b ≤ 0) p.2 :=
    List.Pairwise.sublist hsub hsorted
  refine hcmp.imp_of_mem (fun {a b} ha hb hr => ?_)
  exact htime a (hsub.mem ha) b (hsub.mem hb) hr
    (((h3 p hp).2.2 a ha).trans ((h3 p hp).2.2 b hb).symm)

/-- C8 witness: the amended statement at a one-event stack over a one-day
window. -/
theorem dayStack_drains_in_order_witness :
    ((drainFrom 0 0 1 [⟨"W".toList, RawVal.ts 1970 1 1 8 0 none,
          RawVal.ts 1970 1 1 9 0 none, none⟩]).2 = [] ∧
      ((drainFrom 0 0 1 [⟨"W".toList, RawVal.ts 1970 1 1 8 0 none,
          RawVal.ts 1970 1 1 9 0 none, none⟩]).1.map Prod.snd).flatten =
        [⟨"W".toList, RawVal.ts 1970 1 1 8 0 none,
          RawVal.ts 1970 1 1 9 0 none, none⟩] ∧
      (∀ p ∈ (drainFrom 0 0 1 [⟨"W".toList, RawVal.ts 1970 1 1 8 0 none,
          RawVal.ts 1970 1 1 9 0 none, none⟩]).1, ∀ e ∈ p.2, evStartDate 0 e = p.1) ∧
      (∀ p ∈ (drainFrom 0 0 1 [⟨"W".toList, RawVal.ts 1970 1 1 8 0 none,
          RawVal.ts 1970 1 1 9 0 none, none⟩]).1,
        List.Pairwise (fun a b => evStartMinute 0 a ≤ evStartMinute 0 b) p.2)) :=
  dayStack_drains_in_order 0 0 1 _ (by decide) (by decide)
    (by decide) (by decide)

/-- Event for the C9 counterexample: a non-spanning timed event on
June 1, 2024, outside the 2025 grid. -/
def eOut : EventDataM :=
  ⟨"O".toList, RawVal.ts 2024 6 1 10 0 none, RawVal.ts 2024 6 1 11 0 none, none⟩

set_option maxRecDepth 1000000 in
/-- C9 counterexample: the render pass completes without any error on an
event whose start date lies before the grid, and the event is silently
dropped - it appears in no day cell and is left on the stack. -/
theorem renderNormal_out_of_range_silent_counterexample :
    evDtMultiLength 0 eOut = 0 ∧
      hasTimeRaw eOut.startAt = hasTimeRaw eOut.endAt ∧
      evStartDate 0 eOut < calendarStart 2025 ∧
      (renderNormalPass 0 2025 [eOut]).isOk = true ∧
      countEventIn (passDays (renderNormalPass 0 2025 [eOut])) eOut = 0 ∧
      passLeftover (renderNormalPass 0 2025 [eOut]) = [eOut] := by
  decide

/-- C9 (corrected): the render pass has no out-of-range check: its only
error is the date/date-time mismatch, so classification succeeds whenever
the two endpoints agree; the day loop partitions the stack into the emitted
day cells plus the leftover stack, every emitted event's start date lies
inside the window, and every event whose start date falls outside the
window stays on the leftover stack - it is silently dropped from the
output, with no `OutOfRangeError` surfaced. -/
theorem renderPass_out_of_range_dropped (zone : Int) (data : List EventDataM)
    (hmatch : ∀ e ∈ data, hasTimeRaw e.startAt = hasTimeRaw e.endAt) :
    (splitEvents zone data).isOk = true ∧
      ∀ (day : Int) (n : Nat) (st : List EventDataM),
        ((drainFrom zone day n st).1.map Prod.snd).flatten ++
            (drainFrom zone day n st).2 = st ∧
          (∀ p ∈ (drainFrom zone day n st).1, ∀ e ∈ p.2,
            day ≤ evStartDate zone e ∧ evStartDate zone e < day + (n : Int)) ∧
          (∀ e ∈ st, (evStartDate zone e < day ∨ day + (n : Int) ≤ evStartDate zone e) →
            e ∈ (drainFrom zone day n st).2) := by
  constructor
  · induction data with
    | nil => rfl
    | cons e rest ih =>
      have hmr : ∀ x ∈ rest, hasTimeRaw x.startAt = hasTimeRaw x.endAt :=
        fun x hx => hmatch x (List.mem_cons_of_mem e hx)
      have hme := hmatch e (List.mem_cons_self e rest)
      have hok := ih hmr
      simp only [splitEvents, hme, ne_eq, not_true_eq_false, if_false]
      rcases hsp : splitEvents zone rest with u | nm
      · rw [hsp] at hok
        simp [Except.isOk, Except.toBool] at hok
      · cases nm with
        | mk nl ml =>
          by_cases ht : hasTimeRaw e.endAt = true
          · by_cases hml : 0 < evDtMultiLength zone e
            · simp [ht, hml, Except.isOk, Except.toBool]
            · simp [ht, hml, Except.isOk, Except.toBool]
          · simp [ht, Except.isOk, Except.toBool]
  · intro day n
    induction n generalizing day with
    | zero =>
      intro st
      refine ⟨by simp [drainFrom], by simp [drainFrom], ?_⟩
      intro e he _
      exact he
    | succ k ih =>
      intro st
      have hstep : drainFrom zone day (k + 1) st =
          ((day, st.takeWhile (fun e => decide (evStartDate zone e = day))) ::
              (drainFrom zone (day + 1) k
                (st.dropWhile (fun e => decide (evStartDate zone e = day)))).1,
            (drainFrom zone (day + 1) k
              (st.dropWhile (fun e => decide (evStartDate zone e = day)))).2) := by
        show ((day, (st.span _).1) :: _, _) = _
        rw [List.span_eq_take_drop]
      have hsplit := List.takeWhile_append_dropWhile
        (fun e => decide (evStartDate zone e = day)) st
      have htw : ∀ e ∈ st.takeWhile (fun e => decide (evStartDate zone e = day)),
          evStartDate zone e = day :=
        fun e he => of_decide_eq_true
          (List.mem_takeWhile_imp (p := fun e => decide (evStartDate zone e = day)) he)
      obtain ⟨ih1, ih2, ih3⟩ := ih (day + 1)
        (st.dropWhile (fun e => decide (evStartDate zone e = day)))
      rw [hstep]
      refine ⟨?_, ?_, ?_⟩
      · simp only [List.map_cons, List.flatten_cons, List.append_assoc]
        rw [ih1]
        exact hsplit
      · intro p hp
        rcases List.mem_cons.mp hp with rfl | hp2
        · intro e he
          rw [htw e he]
          constructor
          · exact le_refl day
          · push_cast
            omega
        · intro e he
          have := ih2 p hp2 e he
          push_cast at this ⊢
          omega
      · intro e he hout
        have he2 : e ∈ st.takeWhile (fun e => decide (evStartDate zone e = day)) ∨
            e ∈ st.dropWhile (fun e => decide (evStartDate zone e = day)) := by
          rw [← hsplit] at he
          exact List.mem_append.mp he
        rcases he2 with he2 | he2
        · have := htw e he2
          push_cast at hout
          omega
        · refine ih3 e he2 ?_
          push_cast at hout ⊢
          omega

/-- C9 witness: the amended statement at a concrete singleton input. -/
theorem renderPass_out_of_range_dropped_witness :
    (splitEvents 0 [eOut]).isOk = true ∧
      ((drainFrom 0 5 2 [eOut]).1.map Prod.snd).flatten ++ (drainFrom 0 5 2 [eOut]).2 =
        [eOut] ∧
      (eOut ∈ (drainFrom 0 5 2 [eOut]).2 ∨ evStartDate 0 eOut = 999) :=
  ⟨(renderPass_out_of_range_dropped 0 [eOut] (by decide)).1,
    ((renderPass_out_of_range_dropped 0 [eOut] (by decide)).2 5 2 [eOut]).1,
    Or.inl (((renderPass_out_of_range_dropped 0 [eOut] (by decide)).2 5 2 [eOut]).2.2
      eOut (by decide) (by decide))⟩

/-!
Claim C2: lane allocation facts for the sweep.  The invariant tracks, for
every prefix of the processed edge list, which open edges are currently
open (emitted, not yet freed by their close edge), that each holds an
occupied lane recorded in `placeOf`, and that those lanes are pairwise
distinct.
-/

theorem occ_firstFree (l : List Bool) : occ l (firstFree l) = false := by
  induction l with
  | nil => rfl
  | cons b t ih =>
    by_cases hb : b = true
    · simp [firstFree, hb, occ, ih]
    · simp only [firstFree, hb, if_false]
      simpa [occ] using hb

theorem occ_lt_firstFree (l : List Bool) (q : Nat) (h : q < firstFree l) :
    occ l q = true := by
  induction l generalizing q with
  | nil => simp [firstFree] at h
  | cons b t ih =>
    by_cases hb : b = true
    · cases q with
      | zero => simpa [occ] using hb
      | succ r =>
        simp only [firstFree, hb, if_true] at h
        exact ih r (by omega)
    · simp [firstFree, hb] at h

theorem lookupNat_append_some (l l2 : List (Nat × Nat)) (i p : Nat)
    (h : lookupNat l i = some p) : lookupNat (l ++ l2) i = some p := by
  unfold lookupNat at h ⊢
  rcases hf : List.find? (fun q => q.1 = i) l with _ | x
  · rw [hf] at h
    exact absurd h (by simp)
  · rw [List.find?_append, hf]
    rw [hf] at h
    simpa using h

theorem lookupNat_append_single_of_none (l : List (Nat × Nat)) (k v : Nat)
    (h : lookupNat l k = none) : lookupNat (l ++ [(k, v)]) k = some v := by
  unfold lookupNat at h ⊢
  rcases hf : List.find? (fun q => q.1 = k) l with _ | x
  · rw [List.find?_append, hf]
    simp [List.find?]
  · rw [hf] at h
    simp at h

theorem lookupNat_append_single_ne (l : List (Nat × Nat)) (k v i : Nat) (hne : i ≠ k) :
    lookupNat (l ++ [(k, v)]) i = lookupNat l i := by
  unfold lookupNat
  rw [List.find?_append]
  have hright : List.find? (fun q : Nat × Nat => q.1 = i) [(k, v)] = none := by
    have hkv : ¬((k, v).1 = i) := fun hc => hne hc.symm
    simp [List.find?, hkv]
  rw [hright]
  simp

/-- Shape of one sweep step: an open edge allocates the first free lane and
records it; a close edge whose backward link has no recorded place is
skipped; a close edge with a recorded place frees it. -/
theorem placeStep_shape (s : PState) (e : Edge) :
    (e.prevId = none ∧
        (placeStep s e).places = jsSetTrue s.places (firstFree s.places) ∧
        (placeStep s e).placeOf = s.placeOf ++ [(e.id, firstFree s.places)]) ∨
      (∃ i, e.prevId = some i ∧ lookupNat s.placeOf i = none ∧ placeStep s e = s) ∨
      (∃ i p, e.prevId = some i ∧ lookupNat s.placeOf i = some p ∧
        (placeStep s e).places = dropTrailingFalse (setFalse s.places p) ∧
        (placeStep s e).placeOf = s.placeOf) := by
  cases he : e.prevId with
  | none =>
    left
    refine ⟨rfl, ?_, ?_⟩ <;> simp [placeStep, he]
  | some i =>
    right
    cases hl : lookupNat s.placeOf i with
    | none =>
      left
      exact ⟨i, rfl, hl, by simp [placeStep, he, hl]⟩
    | some p =>
      right
      refine ⟨i, p, rfl, hl, ?_, ?_⟩ <;> simp [placeStep, he, hl]

theorem lookupNat_placeStep_mono (s : PState) (e : Edge) (i p : Nat)
    (h : lookupNat s.placeOf i = some p) :
    lookupNat (placeStep s e).placeOf i = some p := by
  rcases placeStep_shape s e with ⟨_, _, hpo⟩ | ⟨j, _, _, hst⟩ | ⟨j, q, _, _, _, hpo⟩
  · rw [hpo]
    exact lookupNat_append_some _ _ i p h
  · rw [hst]
    exact h
  · rw [hpo]
    exact h

theorem lookupNat_run_mono (pending : List Edge) (s : PState) (i p : Nat)
    (h : lookupNat s.placeOf i = some p) :
    lookupNat (pending.foldl placeStep s).placeOf i = some p := by
  induction pending generalizing s with
  | nil => exact h
  | cons e rest ih => exact ih _ (lookupNat_placeStep_mono s e i p h)

/-- Some close edge of `P` frees the open edge with id `i`. -/
def closedIn (P : List Edge) (i : Nat) : Prop := ∃ c ∈ P, c.prevId = some i

/-- The open edge `o` has been processed in `P` and not yet closed. -/
def openAt (P : List Edge) (o : Edge) : Prop :=
  o ∈ P ∧ o.prevId = none ∧ ¬closedIn P o.id

/-- Sweep invariant: `placeOf` has exactly the processed open edges' ids as
keys; every currently open edge holds an occupied lane; currently open
edges hold pairwise distinct lanes. -/
def SweepInv (P : List Edge) (s : PState) : Prop :=
  (∀ i : Nat, (lookupNat s.placeOf i).isSome = true ↔
      ∃ o ∈ P, o.prevId = none ∧ o.id = i) ∧
    (∀ o, openAt P o →
      ∃ p, lookupNat s.placeOf o.id = some p ∧ occ s.places p = true) ∧
    (∀ o o1, openAt P o → openAt P o1 → o.id ≠ o1.id → ∀ p p1,
      lookupNat s.placeOf o.id = some p → lookupNat s.placeOf o1.id = some p1 →
      p ≠ p1)

theorem inv_nil : SweepInv [] ⟨[], [], []⟩ := by
  refine ⟨fun i => ?_, fun o ho => absurd ho.1 (List.not_mem_nil o), fun o o1 ho => absurd ho.1 (List.not_mem_nil o)⟩
  simp [lookupNat, List.find?]

theorem closedIn_mono (P : List Edge) (e : Edge) (i : Nat) (h : closedIn P i) :
    closedIn (P ++ [e]) i := by
  obtain ⟨c, hc, hcp⟩ := h
  exact ⟨c, List.mem_append_left _ hc, hcp⟩

theorem openAt_append_elim (P : List Edge) (e o : Edge)
    (h : openAt (P ++ [e]) o) (hoP : o ∈ P) : openAt P o :=
  ⟨hoP, h.2.1, fun hc => h.2.2 (closedIn_mono P e o.id hc)⟩

theorem inv_step (P : List Edge) (s : PState) (e : Edge)
    (hInv : SweepInv P s)
    (hid : ∀ o ∈ P, o.id ≠ e.id)
    (hcl : ∀ i, e.prevId = some i → ∀ c ∈ P, c.prevId ≠ some i) :
    SweepInv (P ++ [e]) (placeStep s e) := by
  obtain ⟨inv1, inv2, inv3⟩ := hInv
  rcases placeStep_shape s e with ⟨hopen, hpl, hpo⟩ | ⟨i, hprev, hlk, hst⟩ |
    ⟨i, p, hprev, hlk, hpl, hpo⟩
  · have hlknone : lookupNat s.placeOf e.id = none := by
      rcases hlk2 : lookupNat s.placeOf e.id with _ | q
      · rfl
      · have hsome : (lookupNat s.placeOf e.id).isSome = true := by rw [hlk2]; rfl
        obtain ⟨o, ho, _, hoid⟩ := (inv1 e.id).mp hsome
        exact absurd hoid (hid o ho)
    have hlkE : lookupNat (placeStep s e).placeOf e.id =
        some (firstFree s.places) := by
      rw [hpo]
      exact lookupNat_append_single_of_none _ _ _ hlknone
    have hlkNe : ∀ i2, i2 ≠ e.id →
        lookupNat (placeStep s e).placeOf i2 = lookupNat s.placeOf i2 := by
      intro i2 h2
      rw [hpo]
      exact lookupNat_append_single_ne _ _ _ _ h2
    refine ⟨?_, ?_, ?_⟩
    · intro i2
      by_cases h2 : i2 = e.id
      · subst h2
        constructor
        · intro _
          exact ⟨e, List.mem_append_right _ (by simp), hopen, rfl⟩
        · intro _
          rw [hlkE]
          rfl
      · rw [hlkNe i2 h2, inv1 i2]
        constructor
        · rintro ⟨o, ho, hop, hoid⟩
          exact ⟨o, List.mem_append_left _ ho, hop, hoid⟩
        · rintro ⟨o, ho, hop, hoid⟩
          rcases List.mem_append.mp ho with ho2 | ho2
          · exact ⟨o, ho2, hop, hoid⟩
          · simp only [List.mem_singleton] at ho2
            subst ho2
            exact absurd hoid.symm h2
    · intro o hoAt
      rcases List.mem_append.mp hoAt.1 with hoP | hoE
      · have hAtP : openAt P o :=
          ⟨hoP, hoAt.2.1, fun hc => hoAt.2.2 (closedIn_mono P e _ hc)⟩
        obtain ⟨q, hq, hocc⟩ := inv2 o hAtP
        refine ⟨q, ?_, ?_⟩
        · rw [hlkNe o.id (hid o hoP)]
          exact hq
        · rw [hpl]
          have hne : q ≠ firstFree s.places := by
            intro hc
            rw [hc, occ_firstFree] at hocc
            cases hocc
          rw [occ_jsSetTrue_ne _ _ _ hne]
          exact hocc
      · simp only [List.mem_singleton] at hoE
        subst hoE
        refine ⟨firstFree s.places, hlkE, ?_⟩
        rw [hpl]
        exact occ_jsSetTrue_self _ _
    · intro o o1 hoAt ho1At hneid q q1 hq hq1
      rcases List.mem_append.mp hoAt.1 with hoP | hoE <;>
        rcases List.mem_append.mp ho1At.1 with ho1P | ho1E
      · rw [hlkNe _ (hid o hoP)] at hq
        rw [hlkNe _ (hid o1 ho1P)] at hq1
        exact inv3 o o1 (openAt_append_elim P e o hoAt hoP)
          (openAt_append_elim P e o1 ho1At ho1P) hneid q q1 hq hq1
      · simp only [List.mem_singleton] at ho1E
        subst ho1E
        rw [hlkE] at hq1
        have hq1v : q1 = firstFree s.places := by
          injection hq1 with h
          exact h.symm
        subst hq1v
        rw [hlkNe _ (hid o hoP)] at hq
        obtain ⟨q0, hq0, hocc0⟩ := inv2 o (openAt_append_elim P _ o hoAt hoP)
        rw [hq0] at hq
        have hqv : q = q0 := by
          injection hq with h
          exact h.symm
        subst hqv
        intro hc
        rw [hc, occ_firstFree] at hocc0
        cases hocc0
      · simp only [List.mem_singleton] at hoE
        subst hoE
        rw [hlkE] at hq
        have hqv : q = firstFree s.places := by
          injection hq with h
          exact h.symm
        subst hqv
        rw [hlkNe _ (hid o1 ho1P)] at hq1
        obtain ⟨q0, hq0, hocc0⟩ := inv2 o1 (openAt_append_elim P _ o1 ho1At ho1P)
        rw [hq0] at hq1
        have hq1v : q1 = q0 := by
          injection hq1 with h
          exact h.symm
        subst hq1v
        intro hc
        rw [← hc, occ_firstFree] at hocc0
        cases hocc0
      · simp only [List.mem_singleton] at hoE ho1E
        subst hoE
        subst ho1E
        exact absurd rfl hneid
  · rw [hst]
    have hmemP : ∀ o : Edge, o ∈ P ++ [e] → o.prevId = none → o ∈ P := by
      intro o ho hop
      rcases List.mem_append.mp ho with h | h
      · exact h
      · simp only [List.mem_singleton] at h
        subst h
        rw [hprev] at hop
        cases hop
    refine ⟨?_, ?_, ?_⟩
    · intro i2
      rw [inv1 i2]
      constructor
      · rintro ⟨o, ho, hop, hoid⟩
        exact ⟨o, List.mem_append_left _ ho, hop, hoid⟩
      · rintro ⟨o, ho, hop, hoid⟩
        exact ⟨o, hmemP o ho hop, hop, hoid⟩
    · intro o hoAt
      exact inv2 o (openAt_append_elim P e o hoAt (hmemP o hoAt.1 hoAt.2.1))
    · intro o o1 hoAt ho1At
      exact inv3 o o1 (openAt_append_elim P e o hoAt (hmemP o hoAt.1 hoAt.2.1))
        (openAt_append_elim P e o1 ho1At (hmemP o1 ho1At.1 ho1At.2.1))
  · have hmemP : ∀ o : Edge, o ∈ P ++ [e] → o.prevId = none → o ∈ P := by
      intro o ho hop
      rcases List.mem_append.mp ho with h | h
      · exact h
      · simp only [List.mem_singleton] at h
        subst h
        rw [hprev] at hop
        cases hop
    refine ⟨?_, ?_, ?_⟩
    · intro i2
      rw [hpo, inv1 i2]
      constructor
      · rintro ⟨o, ho, hop, hoid⟩
        exact ⟨o, List.mem_append_left _ ho, hop, hoid⟩
      · rintro ⟨o, ho, hop, hoid⟩
        exact ⟨o, hmemP o ho hop, hop, hoid⟩
    · intro o hoAt
      have hoP : o ∈ P := hmemP o hoAt.1 hoAt.2.1
      have hAtP : openAt P o := openAt_append_elim P e o hoAt hoP
      obtain ⟨q, hq, hocc⟩ := inv2 o hAtP
      have hne_i : o.id ≠ i := by
        intro hc
        exact hoAt.2.2 ⟨e, List.mem_append_right _ (by simp), by rw [hprev, hc]⟩
      have hsome : (lookupNat s.placeOf i).isSome = true := by rw [hlk]; rfl
      obtain ⟨oi, hoiP, hoiOpen, hoiId⟩ := (inv1 i).mp hsome
      have hnc : ¬closedIn P oi.id := by
        rintro ⟨c, hcP, hcp⟩
        rw [hoiId] at hcp
        exact (hcl i hprev c hcP) hcp
      have hoiAt : openAt P oi := ⟨hoiP, hoiOpen, hnc⟩
      have hqi : lookupNat s.placeOf oi.id = some p := by
        rw [hoiId]
        exact hlk
      have hne_lane : q ≠ p :=
        inv3 o oi hAtP hoiAt (by rw [hoiId]; exact hne_i) q p hq hqi
      refine ⟨q, by rw [hpo]; exact hq, ?_⟩
      rw [hpl, occ_dropTrailingFalse, occ_setFalse_ne _ _ _ hne_lane]
      exact hocc
    · intro o o1 hoAt ho1At hneid q q1 hq hq1
      rw [hpo] at hq hq1
      exact inv3 o o1 (openAt_append_elim P e o hoAt (hmemP o hoAt.1 hoAt.2.1))
        (openAt_append_elim P e o1 ho1At (hmemP o1 ho1At.1 ho1At.2.1)) hneid q q1 hq hq1

theorem inv_run : ∀ (pending P : List Edge) (s : PState),
    SweepInv P s →
    ((P ++ pending).map Edge.id).Nodup →
    ((P ++ pending).filterMap Edge.prevId).Nodup →
    SweepInv (P ++ pending) (pending.foldl placeStep s)
  | [], P, s, h, _, _ => by simpa using h
  | e :: rest, P, s, h, hids, hprevs => by
    have hid : ∀ o ∈ P, o.id ≠ e.id := by
      intro o ho heq
      have h1 : (P.map Edge.id ++ (e.id :: rest.map Edge.id)).Nodup := by
        simpa using hids
      exact (List.nodup_append.mp h1).2.2 (List.mem_map.mpr ⟨o, ho, rfl⟩)
        (heq ▸ List.mem_cons_self o.id _)
    have hcl : ∀ i, e.prevId = some i → ∀ c ∈ P, c.prevId ≠ some i := by
      intro i hei c hc hceq
      have h1 : (P.filterMap Edge.prevId ++ (i :: rest.filterMap Edge.prevId)).Nodup := by
        have h2 : (e :: rest).filterMap Edge.prevId = i :: rest.filterMap Edge.prevId := by
          simp [List.filterMap_cons, hei]
        rw [List.filterMap_append, h2] at hprevs
        exact hprevs
      exact (List.nodup_append.mp h1).2.2 (List.mem_filterMap.mpr ⟨c, hc, hceq⟩)
        (List.mem_cons_self i _)
    have hstep := inv_step P s e h hid hcl
    have hids2 : (((P ++ [e]) ++ rest).map Edge.id).Nodup := by
      simpa using hids
    have hprevs2 : (((P ++ [e]) ++ rest).filterMap Edge.prevId).Nodup := by
      simpa using hprevs
    have := inv_run rest (P ++ [e]) (placeStep s e) hstep hids2 hprevs2
    simpa using this

theorem segEdges_map_id (ev : MEvent) :
    ∀ (bs : List Int) (base pid : Nat) (e : Int),
      (segEdges ev base pid bs e).map Edge.id = List.range' base (2 * bs.length + 1)
  | [], base, pid, e => by simp [segEdges, List.range']
  | b :: rest, base, pid, e => by
    have ih := segEdges_map_id ev rest (base + 2) (base + 1) e
    have hlen : 2 * (b :: rest).length + 1 = ((2 * rest.length + 1) + 1) + 1 := by
      simp [List.length_cons]
      ring
    rw [hlen, List.range'_succ, List.range'_succ]
    simp only [segEdges, List.map_cons, ih]

theorem decomposeEvent_map_id (cal : Int) (ev : MEvent) (base : Nat) :
    (decomposeEvent cal ev base).map Edge.id = List.range' base (edgeCount cal ev) := by
  unfold decomposeEvent edgeCount
  have hlen : 2 * (weekBoundaries (ev.startDate - cal)
      (ev.startDate - cal + ev.mlen)).length + 2 =
      (2 * (weekBoundaries (ev.startDate - cal)
        (ev.startDate - cal + ev.mlen)).length + 1) + 1 := by
    ring
  rw [hlen, List.range'_succ]
  simp only [List.map_cons, segEdges_map_id]

theorem decomposeFrom_map_id (cal : Int) :
    ∀ (evs : List MEvent) (base : Nat),
      ∃ n, (decomposeFrom cal evs base).map Edge.id = List.range' base n
  | [], base => ⟨0, by simp [decomposeFrom]⟩
  | ev :: rest, base => by
    obtain ⟨n, hn⟩ := decomposeFrom_map_id cal rest (base + edgeCount cal ev)
    refine ⟨n + edgeCount cal ev, ?_⟩
    show (decomposeFrom cal (ev :: rest) base).map Edge.id = _
    rw [show decomposeFrom cal (ev :: rest) base =
      decomposeEvent cal ev base ++ decomposeFrom cal rest (base + edgeCount cal ev)
      from rfl]
    rw [List.map_append, decomposeEvent_map_id, hn]
    have := List.range'_append base (edgeCount cal ev) n 1
    simpa using this

theorem decompose_ids_nodup (cal : Int) (evs : List MEvent) :
    ((decomposeMultiEdges cal evs).map Edge.id).Nodup := by
  obtain ⟨n, hn⟩ := decomposeFrom_map_id cal evs 0
  rw [decomposeMultiEdges, hn]
  exact List.nodup_range' _ _

theorem segEdges_prevIds_sorted (ev : MEvent) :
    ∀ (bs : List Int) (base pid : Nat) (e : Int), pid < base →
      List.Pairwise (· < ·) ((segEdges ev base pid bs e).filterMap Edge.prevId) ∧
      ∀ x ∈ (segEdges ev base pid bs e).filterMap Edge.prevId,
        x < base + 2 * bs.length + 1 ∧ (x = pid ∨ base ≤ x)
  | [], base, pid, e, h => by
    refine ⟨by simp [segEdges], ?_⟩
    intro x hx
    simp only [segEdges, List.filterMap_cons] at hx
    simp at hx
    subst hx
    exact ⟨by simp; omega, Or.inl rfl⟩
  | b :: rest, base, pid, e, h => by
    obtain ⟨ih1, ih2⟩ := segEdges_prevIds_sorted ev rest (base + 2) (base + 1) e
      (by omega)
    have hshape : (segEdges ev base pid (b :: rest) e).filterMap Edge.prevId =
        pid :: (segEdges ev (base + 2) (base + 1) rest e).filterMap Edge.prevId := by
      simp [segEdges, List.filterMap_cons]
    rw [hshape]
    refine ⟨List.pairwise_cons.mpr ⟨?_, ih1⟩, ?_⟩
    · intro x hx
      rcases (ih2 x hx).2 with rfl | hge
      · omega
      · omega
    · intro x hx
      rcases List.mem_cons.mp hx with rfl | hx2
      · refine ⟨?_, Or.inl rfl⟩
        simp only [List.length_cons]
        omega
      · obtain ⟨hlt, hor⟩ := ih2 x hx2
        refine ⟨?_, Or.inr ?_⟩
        · simp only [List.length_cons] at hlt ⊢
          omega
        · rcases hor with rfl | hge
          · omega
          · omega

theorem decomposeEvent_prevIds_sorted (cal : Int) (ev : MEvent) (base : Nat) :
    List.Pairwise (· < ·) ((decomposeEvent cal ev base).filterMap Edge.prevId) ∧
    ∀ x ∈ (decomposeEvent cal ev base).filterMap Edge.prevId,
      base ≤ x ∧ x < base + edgeCount cal ev := by
  obtain ⟨h1, h2⟩ := segEdges_prevIds_sorted ev
    (weekBoundaries (ev.startDate - cal) (ev.startDate - cal + ev.mlen))
    (base + 1) base (ev.startDate - cal + ev.mlen) (by omega)
  have hshape : (decomposeEvent cal ev base).filterMap Edge.prevId =
      (segEdges ev (base + 1) base
        (weekBoundaries (ev.startDate - cal) (ev.startDate - cal + ev.mlen))
        (ev.startDate - cal + ev.mlen)).filterMap Edge.prevId := by
    simp [decomposeEvent, List.filterMap_cons]
  rw [hshape]
  refine ⟨h1, ?_⟩
  intro x hx
  obtain ⟨hlt, hor⟩ := h2 x hx
  unfold edgeCount
  rcases hor with rfl | hge
  · omega
  · omega

theorem decomposeFrom_prevIds_sorted (cal : Int) :
    ∀ (evs : List MEvent) (base : Nat),
      List.Pairwise (· < ·) ((decomposeFrom cal evs base).filterMap Edge.prevId) ∧
      ∀ x ∈ (decomposeFrom cal evs base).filterMap Edge.prevId, base ≤ x
  | [], base => by simp [decomposeFrom]
  | ev :: rest, base => by
    obtain ⟨ih1, ih2⟩ := decomposeFrom_prevIds_sorted cal rest (base + edgeCount cal ev)
    obtain ⟨h1, h2⟩ := decomposeEvent_prevIds_sorted cal ev base
    have hshape : (decomposeFrom cal (ev :: rest) base).filterMap Edge.prevId =
        (decomposeEvent cal ev base).filterMap Edge.prevId ++
          (decomposeFrom cal rest (base + edgeCount cal ev)).filterMap Edge.prevId := by
      rw [show decomposeFrom cal (ev :: rest) base =
        decomposeEvent cal ev base ++ decomposeFrom cal rest (base + edgeCount cal ev)
        from rfl]
      exact List.filterMap_append _ _ _
    rw [hshape]
    constructor
    · refine List.pairwise_append.mpr ⟨h1, ih1, ?_⟩
      intro a ha b hb
      have h3 := (h2 a ha).2
      have h4 := ih2 b hb
      omega
    · intro x hx
      rcases List.mem_append.mp hx with h | h
      · exact (h2 x h).1
      · have := ih2 x h
        omega

theorem decompose_prevIds_nodup (cal : Int) (evs : List MEvent) :
    ((decomposeMultiEdges cal evs).filterMap Edge.prevId).Nodup := by
  have h := (decomposeFrom_prevIds_sorted cal evs 0).1
  exact h.imp (fun h2 => Nat.ne_of_lt h2)

theorem compareMultiEdge_le_ord (a b : Edge) (h : compareMultiEdge a b ≤ 0) :
    a.gridOrd ≤ b.gridOrd := by
  unfold compareMultiEdge at h
  by_cases hg : a.gridOrd = b.gridOrd
  · exact le_of_eq hg
  · rw [if_pos hg] at h
    by_cases hlt : a.gridOrd < b.gridOrd
    · exact le_of_lt hlt
    · rw [if_neg hlt] at h
      norm_num at h

theorem nodup_filterMap_eq {α β : Type} (f : α → Option β) :
    ∀ (l : List α), (l.filterMap f).Nodup →
      ∀ a ∈ l, ∀ b ∈ l, ∀ v, f a = some v → f b = some v → a = b
  | [], _, a, ha, _, _, _, _, _ => absurd ha (List.not_mem_nil a)
  | x :: t, hN, a, ha, b, hb, v, hfa, hfb => by
    rcases List.mem_cons.mp ha with rfl | ha2 <;> rcases List.mem_cons.mp hb with rfl | hb2
    · rfl
    · rw [List.filterMap_cons, hfa] at hN
      exact absurd rfl
        ((List.pairwise_cons.mp hN).1 v (List.mem_filterMap.mpr ⟨b, hb2, hfb⟩))
    · rw [List.filterMap_cons, hfb] at hN
      exact absurd rfl
        ((List.pairwise_cons.mp hN).1 v (List.mem_filterMap.mpr ⟨a, ha2, hfa⟩))
    · have hN2 : (t.filterMap f).Nodup := by
        rw [List.filterMap_cons] at hN
        cases hfx : f x with
        | none => rw [hfx] at hN; exact hN
        | some w => rw [hfx] at hN; exact (List.pairwise_cons.mp hN).2
      exact nodup_filterMap_eq f t hN2 a ha2 b hb2 v hfa hfb

theorem mem_mem_split {α : Type} : ∀ (l : List α) (a b : α), a ∈ l → b ∈ l → a ≠ b →
    (∃ l1 l2, l = l1 ++ b :: l2 ∧ a ∈ l1) ∨ (∃ l1 l2, l = l1 ++ a :: l2 ∧ b ∈ l1)
  | [], a, _, ha, _, _ => absurd ha (List.not_mem_nil a)
  | x :: t, a, b, ha, hb, hne => by
    rcases List.mem_cons.mp ha with rfl | ha2
    · rcases List.mem_cons.mp hb with rfl | hb2
      · exact absurd rfl hne
      · obtain ⟨t1, t2, rfl⟩ := List.append_of_mem hb2
        exact Or.inl ⟨a :: t1, t2, rfl, List.mem_cons_self a t1⟩
    · rcases List.mem_cons.mp hb with rfl | hb2
      · obtain ⟨t1, t2, rfl⟩ := List.append_of_mem ha2
        exact Or.inr ⟨b :: t1, t2, rfl, List.mem_cons_self b t1⟩
      · rcases mem_mem_split t a b ha2 hb2 hne with ⟨l1, l2, rfl, h⟩ | ⟨l1, l2, rfl, h⟩
        · exact Or.inl ⟨x :: l1, l2, rfl, List.mem_cons_of_mem x h⟩
        · exact Or.inr ⟨x :: l1, l2, rfl, List.mem_cons_of_mem x h⟩

theorem lane_distinct_aux (u v : List Edge) (o1 c1 o2 : Edge)
    (hids : (((u ++ o2 :: v)).map Edge.id).Nodup)
    (hprevsN : ((u ++ o2 :: v).filterMap Edge.prevId).Nodup)
    (hsort : List.Pairwise (fun a b => compareMultiEdge a b ≤ 0) (u ++ o2 :: v))
    (ho1u : o1 ∈ u) (hc1 : c1 ∈ u ++ o2 :: v)
    (ho1p : o1.prevId = none) (ho2p : o2.prevId = none)
    (hc1p : c1.prevId = some o1.id)
    (hoc : o2.gridOrd < c1.gridOrd) :
    ∀ p1 p2, lookupNat (placeMultiEdges (u ++ o2 :: v)).placeOf o1.id = some p1 →
      lookupNat (placeMultiEdges (u ++ o2 :: v)).placeOf o2.id = some p2 →
      p1 ≠ p2 := by
  intro p1 p2 hp1 hp2
  have husub : u.Sublist (u ++ o2 :: v) := List.sublist_append_left u (o2 :: v)
  have hidsU : (u.map Edge.id).Nodup :=
    List.Nodup.sublist (husub.map Edge.id) hids
  have hprevsU : (u.filterMap Edge.prevId).Nodup :=
    List.Nodup.sublist (husub.filterMap Edge.prevId) hprevsN
  have hInvU : SweepInv u (placeMultiEdges u) := by
    have h := inv_run u [] ⟨[], [], []⟩ inv_nil (by simpa using hidsU)
      (by simpa using hprevsU)
    simpa using h
  obtain ⟨hids1, hids2, hidsD⟩ :=
    List.nodup_append.mp (by simpa using hids :
      (u.map Edge.id ++ (o2.id :: v.map Edge.id)).Nodup)
  have ho1At : openAt u o1 := by
    refine ⟨ho1u, ho1p, ?_⟩
    rintro ⟨c, hcu, hcp⟩
    have hceq : c = c1 := nodup_filterMap_eq Edge.prevId (u ++ o2 :: v) hprevsN
      c (husub.mem hcu) c1 hc1 o1.id hcp hc1p
    subst hceq
    have hcross := (List.pairwise_append.mp hsort).2.2 c hcu o2
      (List.mem_cons_self o2 v)
    have := compareMultiEdge_le_ord c o2 hcross
    omega
  obtain ⟨q1, hq1, hocc1⟩ := hInvU.2.1 o1 ho1At
  have hlk2none : lookupNat (placeMultiEdges u).placeOf o2.id = none := by
    rcases hlk2 : lookupNat (placeMultiEdges u).placeOf o2.id with _ | q
    · rfl
    · have hsome : (lookupNat (placeMultiEdges u).placeOf o2.id).isSome = true := by
        rw [hlk2]; rfl
      obtain ⟨o, ho, _, hoid⟩ := hInvU.1 o2.id |>.mp hsome
      exact absurd (hoid ▸ List.mem_cons_self o2.id (v.map Edge.id))
        (fun hmem => hidsD (List.mem_map.mpr ⟨o, ho, rfl⟩) hmem)
  have hshape := placeStep_shape (placeMultiEdges u) o2
  rcases hshape with ⟨_, _, hpo⟩ | ⟨i, hi, _, _⟩ | ⟨i, q, hi, _, _, _⟩
  · have hfold : placeMultiEdges (u ++ o2 :: v) =
        v.foldl placeStep (placeStep (placeMultiEdges u) o2) := by
      unfold placeMultiEdges
      rw [List.foldl_append]
      rfl
    have hstep1 : lookupNat (placeStep (placeMultiEdges u) o2).placeOf o1.id =
        some q1 := lookupNat_placeStep_mono _ o2 _ q1 hq1
    have hstep2 : lookupNat (placeStep (placeMultiEdges u) o2).placeOf o2.id =
        some (firstFree (placeMultiEdges u).places) := by
      rw [hpo]
      exact lookupNat_append_single_of_none _ _ _ hlk2none
    have hfin1 := lookupNat_run_mono v _ o1.id q1 hstep1
    have hfin2 := lookupNat_run_mono v _ o2.id
      (firstFree (placeMultiEdges u).places) hstep2
    rw [hfold] at hp1 hp2
    rw [hfin1] at hp1
    rw [hfin2] at hp2
    have hp1v : p1 = q1 := by injection hp1 with h; exact h.symm
    have hp2v : p2 = firstFree (placeMultiEdges u).places := by
      injection hp2 with h; exact h.symm
    subst hp1v
    subst hp2v
    intro hc
    rw [hc, occ_firstFree] at hocc1
    cases hocc1
  · rw [ho2p] at hi
    cases hi
  · rw [ho2p] at hi
    cases hi

/-- C2 (confirmed): during the sweep of `placeMultiEdges` over any sorted
edge list of a decomposed spanning-event set, every open edge is assigned
the smallest lane not occupied at that moment (its recorded lane is the
first free index of the `places` array at that point: free itself, with
every smaller lane occupied), and no two segments whose [open, close)
grid-ordinal ranges overlap are ever assigned the same lane. -/
theorem placeMultiEdges_lane_allocation (cal : Int) (evs : List MEvent)
    (edges : List Edge)
    (hperm : edges.Perm (decomposeMultiEdges cal evs))
    (hsort : List.Pairwise (fun a b => compareMultiEdge a b ≤ 0) edges) :
    (∀ l1 e l2, edges = l1 ++ e :: l2 → e.prevId = none →
      lookupNat (placeMultiEdges edges).placeOf e.id =
          some (firstFree (placeMultiEdges l1).places) ∧
        occ (placeMultiEdges l1).places (firstFree (placeMultiEdges l1).places) = false ∧
        ∀ q, q < firstFree (placeMultiEdges l1).places →
          occ (placeMultiEdges l1).places q = true) ∧
    (∀ o1 ∈ edges, ∀ c1 ∈ edges, ∀ o2 ∈ edges, ∀ c2 ∈ edges,
      o1.prevId = none → o2.prevId = none → c1.prevId = some o1.id →
      c2.prevId = some o2.id → o1.id ≠ o2.id →
      max o1.gridOrd o2.gridOrd < min c1.gridOrd c2.gridOrd →
      ∀ p1 p2, lookupNat (placeMultiEdges edges).placeOf o1.id = some p1 →
        lookupNat (placeMultiEdges edges).placeOf o2.id = some p2 → p1 ≠ p2) := by
  have hids : (edges.map Edge.id).Nodup :=
    (hperm.map Edge.id).nodup_iff.mpr (decompose_ids_nodup cal evs)
  have hprevsN : (edges.filterMap Edge.prevId).Nodup :=
    (hperm.filterMap Edge.prevId).nodup_iff.mpr (decompose_prevIds_nodup cal evs)
  constructor
  · intro l1 e l2 hsplit hopen
    subst hsplit
    have husub : l1.Sublist (l1 ++ e :: l2) := List.sublist_append_left _ _
    have hInvL : SweepInv l1 (placeMultiEdges l1) := by
      have h := inv_run l1 [] ⟨[], [], []⟩ inv_nil
        (by simpa using List.Nodup.sublist (husub.map Edge.id) hids)
        (by simpa using List.Nodup.sublist (husub.filterMap Edge.prevId) hprevsN)
      simpa using h
    obtain ⟨hids1, hids2, hidsD⟩ := List.nodup_append.mp
      (show (l1.map Edge.id ++ (e.id :: l2.map Edge.id)).Nodup by simpa using hids)
    have hlknone : lookupNat (placeMultiEdges l1).placeOf e.id = none := by
      rcases hlk2 : lookupNat (placeMultiEdges l1).placeOf e.id with _ | q
      · rfl
      · have hsome : (lookupNat (placeMultiEdges l1).placeOf e.id).isSome = true := by
          rw [hlk2]
          rfl
        obtain ⟨o, ho, _, hoid⟩ := (hInvL.1 e.id).mp hsome
        exact absurd (hoid ▸ List.mem_cons_self e.id (l2.map Edge.id))
          (fun hmem => hidsD (List.mem_map.mpr ⟨o, ho, rfl⟩) hmem)
    rcases placeStep_shape (placeMultiEdges l1) e with ⟨_, _, hpo⟩ | ⟨i, hi, _, _⟩ |
      ⟨i, q, hi, _, _, _⟩
    · have hfold : placeMultiEdges (l1 ++ e :: l2) =
          l2.foldl placeStep (placeStep (placeMultiEdges l1) e) := by
        unfold placeMultiEdges
        rw [List.foldl_append]
        rfl
      have hstep : lookupNat (placeStep (placeMultiEdges l1) e).placeOf e.id =
          some (firstFree (placeMultiEdges l1).places) := by
        rw [hpo]
        exact lookupNat_append_single_of_none _ _ _ hlknone
      refine ⟨?_, occ_firstFree _, fun q hq => occ_lt_firstFree _ q hq⟩
      rw [hfold]
      exact lookupNat_run_mono l2 _ _ _ hstep
    · rw [hopen] at hi
      cases hi
    · rw [hopen] at hi
      cases hi
  · intro o1 ho1 c1 hc1 o2 ho2 c2 hc2 ho1p ho2p hc1p hc2p hneid hov p1 p2 hp1 hp2
    have hm1 : o2.gridOrd ≤ max o1.gridOrd o2.gridOrd := le_max_right _ _
    have hm2 : min c1.gridOrd c2.gridOrd ≤ c1.gridOrd := min_le_left _ _
    have hm3 : o1.gridOrd ≤ max o1.gridOrd o2.gridOrd := le_max_left _ _
    have hm4 : min c1.gridOrd c2.gridOrd ≤ c2.gridOrd := min_le_right _ _
    have hneval : o1 ≠ o2 := fun h => hneid (by rw [h])
    rcases mem_mem_split edges o1 o2 ho1 ho2 hneval with
      ⟨u, w, hsp, ho1u⟩ | ⟨u, w, hsp, ho2u⟩
    · subst hsp
      exact lane_distinct_aux u w o1 c1 o2 hids hprevsN hsort ho1u hc1 ho1p ho2p hc1p
        (by omega) p1 p2 hp1 hp2
    · subst hsp
      exact Ne.symm (lane_distinct_aux u w o2 c2 o1 hids hprevsN hsort ho2u hc2 ho2p
        ho1p hc2p (by omega) p2 p1 hp2 hp1)

/-- C2 witness: the lane-allocation statement at the concrete sorted edge
list of the five-event scenario. -/
theorem placeMultiEdges_lane_allocation_witness :
    sortedC3.Perm (decomposeMultiEdges (calendarStart 2025) evsC3) ∧
      List.Pairwise (fun a b => compareMultiEdge a b ≤ 0) sortedC3 ∧
      ((∀ l1 e l2, sortedC3 = l1 ++ e :: l2 → e.prevId = none →
        lookupNat (placeMultiEdges sortedC3).placeOf e.id =
            some (firstFree (placeMultiEdges l1).places) ∧
          occ (placeMultiEdges l1).places (firstFree (placeMultiEdges l1).places) = false ∧
          ∀ q, q < firstFree (placeMultiEdges l1).places →
            occ (placeMultiEdges l1).places q = true) ∧
      (∀ o1 ∈ sortedC3, ∀ c1 ∈ sortedC3, ∀ o2 ∈ sortedC3, ∀ c2 ∈ sortedC3,
        o1.prevId = none → o2.prevId = none → c1.prevId = some o1.id →
        c2.prevId = some o2.id → o1.id ≠ o2.id →
        max o1.gridOrd o2.gridOrd < min c1.gridOrd c2.gridOrd →
        ∀ p1 p2, lookupNat (placeMultiEdges sortedC3).placeOf o1.id = some p1 →
          lookupNat (placeMultiEdges sortedC3).placeOf o2.id = some p2 → p1 ≠ p2)) :=
  ⟨by decide, by decide,
    placeMultiEdges_lane_allocation (calendarStart 2025) evsC3 sortedC3
      (by decide) (by decide)⟩
